import Mathlib

/-!
Verification development for the local marker graph core of the shasta assembler
(`src/LocalMarkerGraph2.cpp`).

The C++ code is shallowly embedded below:

* sequence aggregation (`storeEdgeInfo`, both overloads) over an abstract
  environment `Env` standing for the external marker/read stores;
* the maximum-coverage spanning tree (`computeOptimalSpanningTree`,
  a Kruskal variant over a functional model of `boost::disjoint_sets`);
* the longest-path computation (`computeOptimalSpanningTreeBestPath`),
  with the output of `boost::topological_sort` passed in as an explicit
  vertex order, constrained by the `IsTopoOrder` predicate;
* vertex registration (`addVertex` / `findVertex`).

Machine integers: marker positions and read lengths are modelled as `Nat`;
the `uint8_t` cast in the overlap count is modelled as `% 256` and the
`uint32_t` subtractions in the reverse-strand index as `sub32`
(wrap-around at `2 ^ 32`), because those are the places where width matters.
-/

namespace Shasta

/-- One DNA base (`shasta::Base`). -/
inductive ShBase
  | A
  | C
  | G
  | T
deriving DecidableEq, Repr

/-- Base complementation (`Base::complementInPlace`). -/
def ShBase.complementInPlace : ShBase → ShBase
  | .A => .T
  | .C => .G
  | .G => .C
  | .T => .A

/-- Modelled from the spec: `OrientedReadId` comes from `ReadId.hpp`, which is not
under `src/`. The glossary defines an oriented read as a read paired with a strand;
the code uses `getValue()` as a dense index and compares oriented read ids with `<`.
We model it as the packed value `2 * readId + strand`. -/
structure OrientedReadId where
  value : Nat
deriving DecidableEq, Repr

/-- The read id part of an oriented read id. -/
def OrientedReadId.getReadId (o : OrientedReadId) : Nat := o.value / 2

/-- The strand part (0 or 1) of an oriented read id. -/
def OrientedReadId.getStrand (o : OrientedReadId) : Nat := o.value % 2

/-- The packed value of an oriented read id. -/
def OrientedReadId.getValue (o : OrientedReadId) : Nat := o.value

/-- One entry of `LocalMarkerGraph2Vertex::markerInfos`: a marker occurrence,
with its global marker id and the (orientedReadId, ordinal) pair obtained from
`findMarkerId`. -/
structure MarkerInfo where
  markerId : Nat
  orientedReadId : OrientedReadId
  ordinal : Nat
deriving DecidableEq, Repr

/-- `LocalMarkerGraph2Edge::Info`: one observation, the oriented read and the
ordinals of the two markers that produced a given edge sequence. -/
structure Info where
  orientedReadId : OrientedReadId
  ordinal0 : Nat
  ordinal1 : Nat
deriving DecidableEq, Repr

/-- `LocalMarkerGraph2Edge::Sequence`: either an overlapping-base count with an
empty base list, or an explicit base list. The count field is a `uint8_t` in the
C++ code; values stored into it are reduced `% 256` at the assignment. -/
structure ShSequence where
  overlappingBaseCount : Nat
  sequence : List ShBase
deriving DecidableEq, Repr

/-- External collaborators of `LocalMarkerGraph2`, as consumed by
`storeEdgeInfo`: the global marker store (positions, indexed by global marker
id and alternatively by (oriented read value, ordinal)), the global
marker-graph vertex table (`none` models
`invalidCompressedGlobalMarkerGraphVertexId`), and the read base store. -/
structure Env where
  k : Nat
  markerPosition : Nat → Nat
  markerPositionByOrd : Nat → Nat → Nat
  globalVertex : Nat → Option Nat
  readBase : Nat → Nat → ShBase
  readBaseCount : Nat → Nat

/-- 2 ^ 32, the modulus of `uint32_t` arithmetic. -/
def U32 : Nat := 4294967296

/-- `uint32_t` subtraction: `a - b` wrapping at `2 ^ 32`. -/
def sub32 (a b : Nat) : Nat := (a % U32 + U32 - b % U32) % U32

/-- The loop of `storeEdgeInfo` lines 179-185: scan the global marker ids
strictly between `markerId0` and `markerId1` and report whether any of them is
mapped to a (global) marker graph vertex. -/
def interveningVertexFound (env : Env) (markerId0 markerId1 : Nat) : Bool :=
  (List.range' (markerId0 + 1) (markerId1 - (markerId0 + 1))).any
    (fun m => (env.globalVertex m).isSome)

/-- The base read at one position of the gap-filling loop of `storeEdgeInfo`:
forward base on strand 0, complemented base at the `uint32_t` position
`readLength - 1 - position` on strand 1. -/
def strandBase (env : Env) (o : OrientedReadId) (readLength position : Nat) : ShBase :=
  if o.getStrand = 0 then env.readBase o.getReadId position
  else (env.readBase o.getReadId (sub32 (sub32 readLength 1) position)).complementInPlace

/-- The gap-filling loop of `storeEdgeInfo` (`for(position = p0 + k; position != p1; ++position)`),
written with the remaining iteration count `count = p1 - position` as the
structural recursion argument so that it evaluates by kernel reduction. The
C++ loop is entered only when `position < p1`, where the two coincide. -/
def buildBases (env : Env) (o : OrientedReadId) (readLength : Nat) :
    Nat → Nat → List ShBase
  | 0, _ => []
  | count + 1, position =>
    strandBase env o readLength position :: buildBases env o readLength count (position + 1)

/-- Lines 192-210 of `storeEdgeInfo` (and identically lines 288-306 of the
second overload): build the `Sequence` for one accepted observation from the
positions of its two markers. -/
def makeSequence (env : Env) (o : OrientedReadId) (position0 position1 : Nat) : ShSequence :=
  if position1 ≤ position0 + env.k then
    { overlappingBaseCount := (position0 + env.k - position1) % 256, sequence := [] }
  else
    { overlappingBaseCount := 0,
      sequence := buildBases env o (env.readBaseCount o.getReadId % U32)
        (position1 - (position0 + env.k)) (position0 + env.k) }

/-- The merge scan of the vertex-based `storeEdgeInfo` overload (lines 139-256):
walk the two sorted `markerInfos` lists, find common oriented reads, take the
streak of occurrences of that read on each side, and accept the pair exactly
when both streaks have length one, the source ordinal is smaller, and no
intervening marker belongs to a marker graph vertex. Returns the accepted
(Sequence, Info) pairs in scan order. -/
def mergeScan (env : Env) : List MarkerInfo → List MarkerInfo → List (ShSequence × Info)
  | [], _ => []
  | _ :: _, [] => []
  | m0 :: t0, m1 :: t1 =>
    if m0.orientedReadId.value < m1.orientedReadId.value then
      mergeScan env t0 (m1 :: t1)
    else if m1.orientedReadId.value < m0.orientedReadId.value then
      mergeScan env (m0 :: t0) t1
    else
      -- the two oriented read ids are the same; the streaks begin at m0 and m1
      let o := m0.orientedReadId
      let rest0 := t0.dropWhile (fun m => m.orientedReadId == o)
      let rest1 := t1.dropWhile (fun m => m.orientedReadId == o)
      (if (t0.takeWhile (fun m => m.orientedReadId == o)).length = 0 ∧
          (t1.takeWhile (fun m => m.orientedReadId == o)).length = 0 ∧
          m0.ordinal < m1.ordinal ∧
          interveningVertexFound env m0.markerId m1.markerId = false then
        [(makeSequence env o (env.markerPosition m0.markerId) (env.markerPosition m1.markerId),
          { orientedReadId := o, ordinal0 := m0.ordinal, ordinal1 := m1.ordinal })]
      else []) ++ mergeScan env rest0 rest1
termination_by l0 l1 => l0.length + l1.length
decreasing_by
  all_goals
    have h0 := (List.dropWhile_sublist (l := t0) (fun m => m.orientedReadId == m0.orientedReadId)).length_le
    have h1 := (List.dropWhile_sublist (l := t1) (fun m => m.orientedReadId == m0.orientedReadId)).length_le
    simp only [List.length_cons]
    omega

/-- Numeric code of a base, used only to define the modelled key order. -/
def ShBase.code : ShBase → Nat
  | .A => 0
  | .C => 1
  | .G => 2
  | .T => 3

/-- Lexicographic comparison of base lists. -/
def baseListLt : List ShBase → List ShBase → Bool
  | [], [] => false
  | [], _ :: _ => true
  | _ :: _, [] => false
  | a :: s, b :: t =>
    if a.code < b.code then true
    else if b.code < a.code then false
    else baseListLt s t

/-- Modelled from the spec: the `Sequence` comparison operator lives in
`LocalMarkerGraph2.hpp`, which is not under `src/`. The spec requires the two
representations to compare as distinct values under a total order usable as a
`std::map` key; we model the order as lexicographic on
`(overlappingBaseCount, sequence)`. -/
def seqLt (a b : ShSequence) : Bool :=
  if a.overlappingBaseCount < b.overlappingBaseCount then true
  else if b.overlappingBaseCount < a.overlappingBaseCount then false
  else baseListLt a.sequence b.sequence

/-- Insertion into the `std::map<Sequence, vector<Info>> sequenceTable`:
append the `Info` to the entry of an existing key, or insert a new key at its
place in key order. Two keys collide exactly when they are equal
(`seqLt_iff_eq` below justifies using structural equality for `std::map`
key equivalence). -/
def tableInsert (s : ShSequence) (i : Info) :
    List (ShSequence × List Info) → List (ShSequence × List Info)
  | [] => [(s, [i])]
  | (s0, l) :: t =>
    if s = s0 then (s0, l ++ [i]) :: t
    else if seqLt s s0 then (s, [i]) :: (s0, l) :: t
    else (s0, l) :: tableInsert s i t

/-- One step of the final `sort` by decreasing size of the `Info` vector
(`OrderPairsBySizeOfSecondGreater`); ties keep their key order, a
deterministic choice the C++ `std::sort` leaves unspecified. -/
def insertBySize (x : ShSequence × List Info) :
    List (ShSequence × List Info) → List (ShSequence × List Info)
  | [] => [x]
  | y :: t => if y.2.length < x.2.length then x :: y :: t else y :: insertBySize x t

/-- The final sort of `edge.infos` by decreasing group size. -/
def sortBySizeDesc (l : List (ShSequence × List Info)) : List (ShSequence × List Info) :=
  l.foldr insertBySize []

/-- The vertex-based `storeEdgeInfo` overload (lines 116-267): run the merge
scan over the two vertices' marker lists, group the accepted observations by
sequence, and sort the groups by decreasing size. Result: the edge's `infos`. -/
def storeEdgeInfoFromVertices (env : Env) (l0 l1 : List MarkerInfo) :
    List (ShSequence × List Info) :=
  sortBySizeDesc ((mergeScan env l0 l1).foldl (fun t si => tableInsert si.1 si.2 t) [])

/-- The sequence computed for one `Info` by the second `storeEdgeInfo` overload
(lines 283-306): the markers are looked up by (oriented read value, ordinal). -/
def seqOfInfo (env : Env) (i : Info) : ShSequence :=
  makeSequence env i.orientedReadId
    (env.markerPositionByOrd i.orientedReadId.getValue i.ordinal0)
    (env.markerPositionByOrd i.orientedReadId.getValue i.ordinal1)

/-- The second `storeEdgeInfo` overload (lines 274-322), taking a precomputed
vector of `Info` observations. -/
def storeEdgeInfoFromInfos (env : Env) (infoVector : List Info) :
    List (ShSequence × List Info) :=
  sortBySizeDesc (infoVector.foldl (fun t i => tableInsert (seqOfInfo env i) i t) [])

/-- The intervening-vertex condition of the spec, as a proposition: no marker
id strictly between the two markers' ids maps to a (global) marker graph
vertex. -/
def NoIntervening (env : Env) (markerId0 markerId1 : Nat) : Prop :=
  ∀ id, markerId0 < id → id < markerId1 → env.globalVertex id = none

instance (env : Env) (a b : Nat) : Decidable (NoIntervening env a b) :=
  decidable_of_iff (∀ id, id < b → a < id → env.globalVertex id = none)
    (by
      unfold NoIntervening
      constructor
      · intro h id h1 h2
        exact h id h2 h1
      · intro h id h1 h2
        exact h id h2 h1)

/-- The acceptance rule of claim C3, stated per oriented read: given the two
streaks (all occurrences of one oriented read in each vertex list), an `Info`
is contributed exactly when both streaks are singletons, the source ordinal is
strictly smaller, and no intervening marker id maps to a marker graph vertex. -/
def acceptOne (env : Env) : List MarkerInfo → List MarkerInfo → List Info
  | [m0], [m1] =>
    if m0.ordinal < m1.ordinal ∧ NoIntervening env m0.markerId m1.markerId then
      [{ orientedReadId := m0.orientedReadId, ordinal0 := m0.ordinal, ordinal1 := m1.ordinal }]
    else []
  | _, _ => []

/-- The sortedness invariant of `markerInfos` that the merge scan of
`storeEdgeInfo` relies on (the lists are sorted by (orientedReadId, ordinal);
only the oriented read part is needed here). -/
def SortedByRead (l : List MarkerInfo) : Prop :=
  l.Pairwise (fun a b => a.orientedReadId.value ≤ b.orientedReadId.value)

instance (l : List MarkerInfo) : Decidable (SortedByRead l) := by
  unfold SortedByRead; infer_instance

/-- Concrete environment used by witnesses: `k = 2`, marker `id` at position
`3 * id`, consistently indexed both ways, no global vertices, a fixed read. -/
def wEnv : Env where
  k := 2
  markerPosition := fun id => 3 * id
  markerPositionByOrd := fun _ ord => 3 * ord
  globalVertex := fun _ => none
  readBase := fun _ p => if p % 2 = 0 then ShBase.A else ShBase.C
  readBaseCount := fun _ => 100

/-- Witness marker list for the source vertex: one occurrence of read 4. -/
def wL0 : List MarkerInfo := [{ markerId := 1, orientedReadId := ⟨4⟩, ordinal := 1 }]

/-- Witness marker list for the target vertex: one occurrence of read 4. -/
def wL1 : List MarkerInfo := [{ markerId := 3, orientedReadId := ⟨4⟩, ordinal := 3 }]

/-- Concrete environment exhibiting an overlap of 256 bases: `k = 300`,
marker 0 at position 0, marker 1 at position 44. -/
def envC5 : Env where
  k := 300
  markerPosition := fun id => 44 * id
  markerPositionByOrd := fun _ ord => 44 * ord
  globalVertex := fun _ => none
  readBase := fun _ _ => ShBase.A
  readBaseCount := fun _ => 1000

/-- The (Sequence, Info) pair the witness environment produces. -/
def siW : ShSequence × Info :=
  (⟨0, [ShBase.C, ShBase.A, ShBase.C, ShBase.A]⟩,
    { orientedReadId := ⟨4⟩, ordinal0 := 1, ordinal1 := 3 })

/-- Witness marker list (overlap fixture, source side). -/
def wL50 : List MarkerInfo := [{ markerId := 0, orientedReadId := ⟨4⟩, ordinal := 1 }]

/-- Witness marker list (overlap fixture, target side). -/
def wL51 : List MarkerInfo := [{ markerId := 1, orientedReadId := ⟨4⟩, ordinal := 2 }]

/-- The (Sequence, Info) pair the overlap fixture produces. -/
def siW5 : ShSequence × Info :=
  (⟨0, []⟩, { orientedReadId := ⟨4⟩, ordinal0 := 1, ordinal1 := 2 })

/-- An edge of `LocalMarkerGraph2` as seen by the spanning-tree and best-path
algorithms: its endpoints (vertex descriptors mapped to `0 .. n-1`, as the
code's `vertexMap` does), its `coverage()` (the total `Info` count of the
edge, computed by `storeEdgeInfo` and declared in the header), and the two
boolean flags. -/
structure KEdge where
  src : Nat
  tgt : Nat
  coverage : Nat
  isSpanningTreeEdge : Bool
  isSpanningTreeBestPathEdge : Bool
deriving DecidableEq, Repr

/-- The graph the two algorithms walk: `n` vertices `0 .. n-1` and an edge
list in insertion order (the iteration order of `BGL_FORALL_EDGES` and the
lookup order of `boost::edge`). -/
structure KGraph where
  n : Nat
  edges : List KEdge
deriving DecidableEq, Repr

/-- The endpoint pair of an edge. -/
def ends (e : KEdge) : Nat × Nat := (e.src, e.tgt)

/-- Pair each list element with its index, starting at `i`. -/
def zipIdxFrom {α : Type} : Nat → List α → List (Nat × α)
  | _, [] => []
  | i, a :: t => (i, a) :: zipIdxFrom (i + 1) t

/-- The comparator `OrderPairsBySecondOnlyGreater` used on the
`(edge, coverage)` table: sort by decreasing coverage. Ties are in an
implementation-defined deterministic order (here: the insertion-sort order). -/
def edgeOrder (a b : Nat × KEdge) : Prop := b.2.coverage ≤ a.2.coverage

instance : DecidableRel edgeOrder := fun _ _ => Nat.decLe _ _

/-- The sorted edge table of `computeOptimalSpanningTree` (lines 336-342). -/
def sortedEdgeTable (g : KGraph) : List (Nat × KEdge) :=
  List.insertionSort edgeOrder (zipIdxFrom 0 g.edges)

/-- `boost::disjoint_sets` modelled by its observable behaviour: a
representative function. `union_set a b` redirects the class of `a` to the
representative of `b`. -/
def ufUnion (r : Nat → Nat) (a b : Nat) : Nat → Nat :=
  fun x => if r x = r a then r b else r x

/-- Fold `union_set` over a list of endpoint pairs. -/
def ufFold : (Nat → Nat) → List (Nat × Nat) → Nat → Nat
  | r, [] => r
  | r, p :: t => ufFold (ufUnion r p.1 p.2) t

/-- The Kruskal loop of `computeOptimalSpanningTree` (lines 361-379): process
`(edge index, endpoint pair)` entries in order; accept an entry when its
endpoints have different representatives, then union them. Returns the final
representative function and the accepted entries in processing order. -/
def kruskalFold : (Nat → Nat) → List (Nat × (Nat × Nat)) →
    ((Nat → Nat) × List (Nat × (Nat × Nat)))
  | r, [] => (r, [])
  | r, ip :: t =>
    if r ip.2.1 = r ip.2.2 then kruskalFold r t
    else
      let res := kruskalFold (ufUnion r ip.2.1 ip.2.2) t
      (res.1, ip :: res.2)

/-- The `(edge index, endpoint pair)` list the Kruskal loop processes. -/
def kruskalInput (g : KGraph) : List (Nat × (Nat × Nat)) :=
  (sortedEdgeTable g).map (fun p => (p.1, ends p.2))

/-- The entries accepted into the optimal spanning tree. -/
def kruskalAccepted (g : KGraph) : List (Nat × (Nat × Nat)) :=
  (kruskalFold id (kruskalInput g)).2

/-- `computeOptimalSpanningTree` (lines 327-380): first clear every
`isSpanningTreeEdge` flag, then set it on exactly the accepted edges. -/
def computeOptimalSpanningTree (g : KGraph) : KGraph :=
  { n := g.n
    edges := (zipIdxFrom 0 g.edges).map (fun p =>
      { p.2 with isSpanningTreeEdge := ((kruskalAccepted g).map Prod.fst).contains p.1 }) }

/-- The number of classes of a representative function on `0 .. n-1`. -/
def numClasses (n : Nat) (r : Nat → Nat) : Nat := ((Finset.range n).image r).card

/-- The number of connected components of the graph: the classes of the
partition generated by all edges (proved below to coincide with the
equivalence closure of undirected adjacency). -/
def numComponents (g : KGraph) : Nat := numClasses g.n (ufFold id (g.edges.map ends))

/-- Undirected adjacency over a list of endpoint pairs. -/
def PRel (ps : List (Nat × Nat)) (a b : Nat) : Prop :=
  ∃ p ∈ ps, (p.1 = a ∧ p.2 = b) ∨ (p.1 = b ∧ p.2 = a)

/-- An undirected walk along the given (endpoint pair, direction) steps. -/
def chainV : List ((Nat × Nat) × Bool) → Nat → Nat → Prop
  | [], x, y => x = y
  | s :: t, x, y =>
    if s.2 then s.1.1 = x ∧ chainV t s.1.2 y else s.1.2 = x ∧ chainV t s.1.1 y

/-- A cycle in the undirected multigraph given by the endpoint pairs `ps`:
a closed non-empty walk that uses distinct edges of `ps` (its multiset of
steps is a sub-multiset of `ps`). -/
def HasCycle (ps : List (Nat × Nat)) : Prop :=
  ∃ (used : List ((Nat × Nat) × Bool)) (x : Nat),
    used ≠ [] ∧ (used.map Prod.fst).Subperm ps ∧ chainV used x x

/-- The incoming spanning-tree edges of `v` (`BGL_FORALL_INEDGES` over the
`SpanningTreeFilter`ed graph), in edge-list order. -/
def treeInEdges (g : KGraph) (v : Nat) : List KEdge :=
  g.edges.filter (fun e => e.isSpanningTreeEdge && e.tgt == v)

/-- The inner loop of `computeOptimalSpanningTreeBestPath` (lines 411-423):
scan the incoming tree edges of a vertex and keep the predecessor with the
largest distance plus one; a missing table entry is the `CZI_ASSERT` failure,
modelled as `none`. -/
def scanInEdges (table : Nat → Option (Option Nat × Nat)) :
    List KEdge → (Option Nat × Nat) → Option (Option Nat × Nat)
  | [], p => some p
  | e :: t, p =>
    match table e.src with
    | none => none
    | some q => scanInEdges table t (if q.2 + 1 > p.2 then (some e.src, q.2 + 1) else p)

/-- The dynamic-programming loop over the topologically sorted vertices,
building `vertexTable`. -/
def dpFold (g : KGraph) : List Nat → (Nat → Option (Option Nat × Nat)) →
    Option (Nat → Option (Option Nat × Nat))
  | [], table => some table
  | v :: rest, table =>
    match scanInEdges table (treeInEdges g v) (none, 0) with
    | none => none
    | some p => dpFold g rest (fun u => if u = v then some p else table u)

/-- The `vertexTable` of `computeOptimalSpanningTreeBestPath`, as a function
of the vertex order produced by `boost::topological_sort`. -/
def bestPathTable (g : KGraph) (order : List Nat) :
    Option (Nat → Option (Option Nat × Nat)) :=
  dpFold g order (fun _ => none)

/-- Lines 426-435: find the vertex with the maximum distance, scanning the
vertices in enumeration order with a strict comparison (`none` models the
`CZI_ASSERT` on a missing table entry). -/
def lastVertexFold (table : Nat → Option (Option Nat × Nat)) :
    List Nat → (Option Nat × Nat) → Option (Option Nat × Nat)
  | [], best => some best
  | v :: t, best =>
    match table v with
    | none => none
    | some q => lastVertexFold table t (if q.2 > best.2 then (some v, q.2) else best)

/-- Lines 438-454: walk the `bestPredecessor` links backward from the last
path vertex and collect the traversed `(v0, v1)` vertex pairs in path order.
The fuel argument bounds the loop; it exceeds every distance value reachable
under a valid topological order. -/
def backtrack (table : Nat → Option (Option Nat × Nat)) : Nat → Nat → List (Nat × Nat)
  | 0, _ => []
  | fuel + 1, v1 =>
    match table v1 with
    | none => []
    | some (none, _) => []
    | some (some v0, _) => backtrack table fuel v0 ++ [(v0, v1)]

/-- `boost::edge(v0, v1, graph)` on the unfiltered graph: the first edge in
the edge list from `v0` to `v1`, if any. Note the C++ code looks this up in
`graph`, not in the filtered `spanningTree`. -/
def findEdgeIdx (g : KGraph) (v0 v1 : Nat) : Option Nat :=
  g.edges.findIdx? (fun e => e.src == v0 && e.tgt == v1)

/-- The `(v0, v1)` vertex pairs of the reconstructed longest path. -/
def pathPairs (g : KGraph) (order : List Nat) : Option (List (Nat × Nat)) :=
  match bestPathTable g order with
  | none => none
  | some table =>
    match lastVertexFold table (List.range g.n) (none, 0) with
    | none => none
    | some best =>
      match best.1 with
      | none => some []
      | some v => some (backtrack table (order.length + 1) v)

/-- The edge indices flagged by the path reconstruction: for each consecutive
vertex pair, the edge `boost::edge` returns; `none` models the
`CZI_ASSERT(edgeWasFound)` failure. -/
def pathEdgeIdxs (g : KGraph) (order : List Nat) : Option (List Nat) :=
  match pathPairs g order with
  | none => none
  | some prs => prs.foldr (fun pr acc =>
      match acc, findEdgeIdx g pr.1 pr.2 with
      | some l, some i => some (i :: l)
      | _, _ => none) (some [])

/-- `computeOptimalSpanningTreeBestPath` (lines 386-466): mark
`isSpanningTreeBestPathEdge` on the edges of the reconstructed path, leaving
every other flag untouched (there is no reset step). -/
def computeOptimalSpanningTreeBestPath (g : KGraph) (order : List Nat) : Option KGraph :=
  match pathEdgeIdxs g order with
  | none => none
  | some idxs =>
    some
      { n := g.n
        edges := (zipIdxFrom 0 g.edges).map (fun p =>
          if idxs.contains p.1 then { p.2 with isSpanningTreeBestPathEdge := true }
          else p.2) }

/-- What `boost::topological_sort` guarantees for the filtered spanning-tree
graph (after the reversal on line 403): every vertex exactly once, and every
spanning-tree edge's source before its target. -/
def IsTopoOrder (g : KGraph) (order : List Nat) : Prop :=
  order.Nodup ∧ (∀ v ∈ order, v < g.n) ∧ (∀ v, v < g.n → v ∈ order) ∧
  ∀ e ∈ g.edges, e.isSpanningTreeEdge = true →
    List.indexOf e.src order < List.indexOf e.tgt order

instance (g : KGraph) (order : List Nat) : Decidable (IsTopoOrder g order) := by
  unfold IsTopoOrder
  infer_instance

/-- The per-vertex contract of the dynamic program (claim C2): the vertex has
a table entry `p`; a vertex with no incoming spanning-tree edge gets
`(none, 0)`; any other vertex gets a predecessor achieving
`longestDistance + 1` for some incoming tree edge, and no incoming tree edge
can beat it. -/
def Local (g : KGraph) (table : Nat → Option (Option Nat × Nat)) (v : Nat) : Prop :=
  ∃ p, table v = some p ∧
    (treeInEdges g v = [] → p = (none, 0)) ∧
    (treeInEdges g v ≠ [] → ∃ e ∈ treeInEdges g v, ∃ q, table e.src = some q ∧
        p.1 = some e.src ∧ p.2 = q.2 + 1) ∧
    (∀ e ∈ treeInEdges g v, ∀ q, table e.src = some q → q.2 + 1 ≤ p.2)

/-- Consecutive linking of a list of (source, target) vertex pairs: the
pairs form one directed path. -/
def PairChain : List (Nat × Nat) → Prop
  | [] => True
  | [_] => True
  | p :: q :: t => p.2 = q.1 ∧ PairChain (q :: t)

/-- A directed path (as a vertex list) whose consecutive vertices are joined
by spanning-tree edges. -/
def TreeChain (g : KGraph) : List Nat → Prop
  | [] => True
  | [_] => True
  | a :: b :: t =>
    (∃ e ∈ g.edges, e.isSpanningTreeEdge = true ∧ e.src = a ∧ e.tgt = b) ∧
      TreeChain g (b :: t)

/-- `LocalMarkerGraph2Vertex`: the global vertex id, the BFS distance, and
the marker occurrences. -/
structure LMVertex where
  vertexId : Nat
  distance : Int
  markerInfos : List MarkerInfo
deriving DecidableEq, Repr

/-- The vertex-registration state of `LocalMarkerGraph2`: the vertex store
(the descriptor of a vertex is its index) and the `vertexMap` from global
vertex id to descriptor. -/
structure VGraph where
  vertices : List LMVertex
  vertexMap : List (Nat × Nat)
deriving DecidableEq, Repr

/-- The external `findMarkerId` mapping a global marker id to its
(orientedReadId, ordinal) pair. -/
structure VEnv where
  findMarkerIdFn : Nat → OrientedReadId × Nat

/-- `vertexMap.find(vertexId)`. -/
def lookupVertex (g : VGraph) (vertexId : Nat) : Option Nat :=
  (g.vertexMap.find? (fun p => p.1 == vertexId)).map Prod.snd

/-- `findVertex` (lines 46-56): `(true, v)` if present, `(false, null)` if
absent; never mutates. -/
def findVertex (g : VGraph) (vertexId : Nat) : Bool × Option Nat :=
  match lookupVertex g vertexId with
  | none => (false, none)
  | some v => (true, some v)

/-- `addVertex` (lines 62-87): the `CZI_ASSERT` that the id is not yet
present is modelled as returning `none`; otherwise the vertex is created,
recorded in the map, and its marker information filled from `findMarkerId`. -/
def addVertex (env : VEnv) (g : VGraph) (vertexId : Nat) (distance : Int)
    (vertexMarkers : List Nat) : Option (Nat × VGraph) :=
  match lookupVertex g vertexId with
  | some _ => none
  | none =>
    let v := g.vertices.length
    let mis := vertexMarkers.map (fun mid =>
      { markerId := mid
        orientedReadId := (env.findMarkerIdFn mid).1
        ordinal := (env.findMarkerIdFn mid).2 })
    some (v, { vertices := g.vertices ++ [⟨vertexId, distance, mis⟩]
               vertexMap := g.vertexMap ++ [(vertexId, v)] })

/-- The endpoint pair of the edge at index `i`, with a dummy for an
out-of-range index. -/
def endsAt (g : KGraph) (i : Nat) : Nat × Nat := ((g.edges[i]?).map ends).getD (0, 0)

/-- Every step of the union fold over these pairs merges two distinct
classes (this is what the acceptance test of the Kruskal loop guarantees for
the accepted edges, replayed alone). -/
def AllMerge : (Nat → Nat) → List (Nat × Nat) → Prop
  | _, [] => True
  | r, p :: t => r p.1 ≠ r p.2 ∧ AllMerge (ufUnion r p.1 p.2) t

/-- Witness graph with two parallel edges `0 → 1`; the second has the larger
coverage. -/
def wKG : KGraph :=
  { n := 2
    edges := [{ src := 0, tgt := 1, coverage := 1, isSpanningTreeEdge := false
                isSpanningTreeBestPathEdge := false },
              { src := 0, tgt := 1, coverage := 5, isSpanningTreeEdge := false
                isSpanningTreeBestPathEdge := false }] }

/-- Witness graph: a triangle on 3 vertices with distinct coverages. -/
def wKG3 : KGraph :=
  { n := 3
    edges := [{ src := 0, tgt := 1, coverage := 3, isSpanningTreeEdge := false
                isSpanningTreeBestPathEdge := false },
              { src := 1, tgt := 2, coverage := 2, isSpanningTreeEdge := false
                isSpanningTreeBestPathEdge := false },
              { src := 0, tgt := 2, coverage := 1, isSpanningTreeEdge := false
                isSpanningTreeBestPathEdge := false }] }

/-- Witness empty vertex-registration state. -/
def wVG : VGraph := { vertices := [], vertexMap := [] }

/-- Witness marker-id environment. -/
def wVEnv : VEnv := { findMarkerIdFn := fun mid => (⟨mid⟩, mid) }

theorem OrientedReadId.value_inj {a b : OrientedReadId} (h : a.value = b.value) : a = b := by
  cases a; cases b; simpa using h

theorem noIntervening_iff (env : Env) (a b : Nat) :
    interveningVertexFound env a b = false ↔ NoIntervening env a b := by
  unfold interveningVertexFound NoIntervening
  rw [← Bool.not_eq_true, List.any_eq_true]
  constructor
  · intro h id h1 h2
    by_contra hc
    exact h ⟨id, List.mem_range'_1.mpr ⟨by omega, by omega⟩, Option.isSome_iff_ne_none.mpr hc⟩
  · rintro h ⟨id, hm, hs⟩
    obtain ⟨h1, h2⟩ := List.mem_range'_1.mp hm
    exact Option.isSome_iff_ne_none.mp hs (h id h1 (by omega))

theorem sortedByRead_cons {m : MarkerInfo} {t : List MarkerInfo} (h : SortedByRead (m :: t)) :
    SortedByRead t ∧ ∀ x ∈ t, m.orientedReadId.value ≤ x.orientedReadId.value := by
  unfold SortedByRead at *
  exact ⟨(List.pairwise_cons.mp h).2, (List.pairwise_cons.mp h).1⟩

theorem sortedByRead_sublist {l t : List MarkerInfo} (hs : List.Sublist t l)
    (h : SortedByRead l) : SortedByRead t :=
  List.Pairwise.sublist hs h

theorem filter_eq_nil_of_gt (o : OrientedReadId) (l : List MarkerInfo)
    (h : ∀ m ∈ l, o.value < m.orientedReadId.value) :
    l.filter (fun m => m.orientedReadId == o) = [] := by
  rw [List.filter_eq_nil_iff]
  intro m hm
  simp only [beq_iff_eq]
  intro he
  exact absurd (he ▸ rfl : m.orientedReadId.value = o.value) (Nat.ne_of_gt (h m hm))

theorem dropWhile_gt (o : OrientedReadId) (l : List MarkerInfo) (hs : SortedByRead l)
    (hlo : ∀ m ∈ l, o.value ≤ m.orientedReadId.value) :
    ∀ m ∈ l.dropWhile (fun m => m.orientedReadId == o), o.value < m.orientedReadId.value := by
  induction l with
  | nil => simp
  | cons a t ih =>
    obtain ⟨ht, hbound⟩ := sortedByRead_cons hs
    by_cases ha : a.orientedReadId = o
    · rw [List.dropWhile_cons_of_pos (by simpa using ha)]
      exact ih ht (fun m hm => hlo m (List.mem_cons_of_mem a hm))
    · rw [List.dropWhile_cons_of_neg (by simpa using ha)]
      intro m hm
      have hao : o.value < a.orientedReadId.value := by
        rcases Nat.lt_or_ge o.value a.orientedReadId.value with h | h
        · exact h
        · exact absurd (OrientedReadId.value_inj
            (Nat.le_antisymm (hlo a (List.mem_cons_self a t)) h)).symm ha
      rcases List.mem_cons.mp hm with rfl | hm
      · exact hao
      · exact Nat.lt_of_lt_of_le hao (hbound m hm)

theorem filter_eq_takeWhile (o : OrientedReadId) (l : List MarkerInfo) (hs : SortedByRead l)
    (hlo : ∀ m ∈ l, o.value ≤ m.orientedReadId.value) :
    l.filter (fun m => m.orientedReadId == o) = l.takeWhile (fun m => m.orientedReadId == o) := by
  induction l with
  | nil => simp
  | cons a t ih =>
    obtain ⟨ht, hbound⟩ := sortedByRead_cons hs
    by_cases ha : a.orientedReadId = o
    · rw [List.filter_cons_of_pos (by simpa using ha),
        List.takeWhile_cons_of_pos (by simpa using ha)]
      rw [ih ht (fun m hm => hlo m (List.mem_cons_of_mem a hm))]
    · rw [List.filter_cons_of_neg (by simpa using ha),
        List.takeWhile_cons_of_neg (by simpa using ha)]
      have hao : o.value < a.orientedReadId.value := by
        rcases Nat.lt_or_ge o.value a.orientedReadId.value with h | h
        · exact h
        · exact absurd (OrientedReadId.value_inj
            (Nat.le_antisymm (hlo a (List.mem_cons_self a t)) h)).symm ha
      exact filter_eq_nil_of_gt o t
        (fun m hm => Nat.lt_of_lt_of_le hao (hbound m hm))

theorem filter_takeWhile_ne (o v : OrientedReadId) (hne : o ≠ v) (l : List MarkerInfo) :
    (l.takeWhile (fun m => m.orientedReadId == v)).filter
      (fun m => m.orientedReadId == o) = [] := by
  rw [List.filter_eq_nil_iff]
  intro m hm
  have := List.mem_takeWhile_imp hm
  simp only [beq_iff_eq] at this ⊢
  rw [this]
  exact fun h => hne h.symm

theorem acceptOne_nil_right (env : Env) (l : List MarkerInfo) : acceptOne env l [] = [] := by
  cases l with
  | nil => rfl
  | cons a t => cases t <;> rfl

theorem acceptOne_nil_left (env : Env) (l : List MarkerInfo) : acceptOne env [] l = [] := by
  cases l with
  | nil => rfl
  | cons a t => cases t <;> rfl

theorem acceptOne_long_left (env : Env) (a b : MarkerInfo) (t l : List MarkerInfo) :
    acceptOne env (a :: b :: t) l = [] := by
  cases l with
  | nil => rfl
  | cons c u => cases u <;> rfl

theorem acceptOne_long_right (env : Env) (a b : MarkerInfo) (t l : List MarkerInfo) :
    acceptOne env l (a :: b :: t) = [] := by
  cases l with
  | nil => rfl
  | cons c u => cases u <;> rfl

/-- C3: in the vertex-scan overload of `storeEdgeInfo`, an oriented read
contributes an `Info` to the edge if and only if its streak of occurrences
(all of its occurrences, by sortedness) has length exactly one in each vertex
list, the ordinal in the source vertex is strictly smaller than in the target
vertex, and no marker id strictly between the two markers' ids maps to a valid
global marker-graph vertex; the contributed `Info` records that read and the
two ordinals. -/
theorem mergeScan_read_characterization (env : Env) (l0 l1 : List MarkerInfo)
    (h0 : SortedByRead l0) (h1 : SortedByRead l1) (o : OrientedReadId) :
    ((mergeScan env l0 l1).map Prod.snd).filter (fun i => i.orientedReadId == o)
      = acceptOne env (l0.filter (fun m => m.orientedReadId == o))
          (l1.filter (fun m => m.orientedReadId == o)) := by
  revert h0 h1
  induction l0, l1 using mergeScan.induct env with
  | case1 l1 =>
    intro h0 h1
    simp [mergeScan, acceptOne_nil_left]
  | case2 m0 t0 =>
    intro h0 h1
    simp [mergeScan, acceptOne_nil_right]
  | case3 m0 t0 m1 t1 hlt ih =>
    intro h0 h1
    obtain ⟨ht0, hb0⟩ := sortedByRead_cons h0
    obtain ⟨ht1, hb1⟩ := sortedByRead_cons h1
    rw [show mergeScan env (m0 :: t0) (m1 :: t1) = mergeScan env t0 (m1 :: t1) by
      rw [mergeScan]; rw [if_pos hlt]]
    rw [ih ht0 h1]
    by_cases ho : o = m0.orientedReadId
    · have hnil : (m1 :: t1).filter (fun m => m.orientedReadId == o) = [] := by
        apply filter_eq_nil_of_gt
        intro m hm
        rcases List.mem_cons.mp hm with rfl | hm
        · exact ho ▸ hlt
        · exact Nat.lt_of_lt_of_le (ho ▸ hlt) (hb1 m hm)
      rw [hnil, acceptOne_nil_right, acceptOne_nil_right]
    · have hfe : (m0 :: t0).filter (fun m => m.orientedReadId == o)
          = t0.filter (fun m => m.orientedReadId == o) := by
        rw [List.filter_cons_of_neg]
        simp only [beq_iff_eq]
        exact fun h => ho h.symm
      rw [hfe]
  | case4 m0 t0 m1 t1 hge hlt ih =>
    intro h0 h1
    obtain ⟨ht0, hb0⟩ := sortedByRead_cons h0
    obtain ⟨ht1, hb1⟩ := sortedByRead_cons h1
    rw [show mergeScan env (m0 :: t0) (m1 :: t1) = mergeScan env (m0 :: t0) t1 by
      rw [mergeScan]; rw [if_neg hge, if_pos hlt]]
    rw [ih h0 ht1]
    by_cases ho : o = m1.orientedReadId
    · have hnil : (m0 :: t0).filter (fun m => m.orientedReadId == o) = [] := by
        apply filter_eq_nil_of_gt
        intro m hm
        rcases List.mem_cons.mp hm with rfl | hm
        · exact ho ▸ hlt
        · exact Nat.lt_of_lt_of_le (ho ▸ hlt) (hb0 m hm)
      rw [hnil, acceptOne_nil_left, acceptOne_nil_left]
    · have hfe : (m1 :: t1).filter (fun m => m.orientedReadId == o)
          = t1.filter (fun m => m.orientedReadId == o) := by
        rw [List.filter_cons_of_neg]
        simp only [beq_iff_eq]
        exact fun h => ho h.symm
      rw [hfe]
  | case5 m0 t0 m1 t1 hge1 hge2 ov r0 r1 ih =>
    intro h0 h1
    obtain ⟨ht0, hb0⟩ := sortedByRead_cons h0
    obtain ⟨ht1, hb1⟩ := sortedByRead_cons h1
    have hv : m1.orientedReadId = m0.orientedReadId :=
      OrientedReadId.value_inj (Nat.le_antisymm (Nat.le_of_not_lt hge1) (Nat.le_of_not_lt hge2))
    have hs0 : SortedByRead (t0.dropWhile (fun m => m.orientedReadId == m0.orientedReadId)) :=
      sortedByRead_sublist (List.dropWhile_sublist _) ht0
    have hs1 : SortedByRead (t1.dropWhile (fun m => m.orientedReadId == m0.orientedReadId)) :=
      sortedByRead_sublist (List.dropWhile_sublist _) ht1
    rw [show mergeScan env (m0 :: t0) (m1 :: t1) =
        (if (t0.takeWhile (fun m => m.orientedReadId == m0.orientedReadId)).length = 0 ∧
            (t1.takeWhile (fun m => m.orientedReadId == m0.orientedReadId)).length = 0 ∧
            m0.ordinal < m1.ordinal ∧
            interveningVertexFound env m0.markerId m1.markerId = false then
          [(makeSequence env m0.orientedReadId (env.markerPosition m0.markerId)
              (env.markerPosition m1.markerId),
            { orientedReadId := m0.orientedReadId, ordinal0 := m0.ordinal,
              ordinal1 := m1.ordinal })]
        else []) ++
          mergeScan env (t0.dropWhile (fun m => m.orientedReadId == m0.orientedReadId))
            (t1.dropWhile (fun m => m.orientedReadId == m0.orientedReadId)) by
      rw [mergeScan]; rw [if_neg hge1, if_neg hge2]]
    rw [List.map_append, List.filter_append, ih hs0 hs1]
    by_cases ho : o = m0.orientedReadId
    · -- the query read is the common read of the two streaks
      rw [ho]
      have hdrop0 : (t0.dropWhile (fun m => m.orientedReadId == m0.orientedReadId)).filter
          (fun m => m.orientedReadId == m0.orientedReadId) = [] :=
        filter_eq_nil_of_gt _ _ (dropWhile_gt _ t0 ht0 hb0)
      have hdrop1 : (t1.dropWhile (fun m => m.orientedReadId == m0.orientedReadId)).filter
          (fun m => m.orientedReadId == m0.orientedReadId) = [] :=
        filter_eq_nil_of_gt _ _ (dropWhile_gt _ t1 ht1 (fun m hm => hv ▸ hb1 m hm))
      rw [hdrop0, hdrop1, acceptOne_nil_left, List.append_nil]
      rw [List.filter_cons_of_pos (by simp), List.filter_cons_of_pos (by simp [hv])]
      rw [filter_eq_takeWhile _ t0 ht0 hb0,
        filter_eq_takeWhile _ t1 ht1 (fun m hm => hv ▸ hb1 m hm)]
      rcases ht0e : t0.takeWhile (fun m => m.orientedReadId == m0.orientedReadId)
        with _ | ⟨a0, u0⟩
      · rcases ht1e : t1.takeWhile (fun m => m.orientedReadId == m0.orientedReadId)
          with _ | ⟨a1, u1⟩
        · -- both streaks are singletons [m0], [m1]
          rw [ht0e, ht1e]
          simp only [List.length_nil, acceptOne]
          by_cases hcond : m0.ordinal < m1.ordinal ∧
              interveningVertexFound env m0.markerId m1.markerId = false
          · rw [if_pos ⟨by simp, by simp, hcond.1, hcond.2⟩,
              if_pos ⟨hcond.1, (noIntervening_iff env _ _).mp hcond.2⟩]
            simp
          · rw [if_neg (by
                intro hc
                exact hcond ⟨hc.2.2.1, hc.2.2.2⟩)]
            rw [if_neg (by
                intro hc
                exact hcond ⟨hc.1, (noIntervening_iff env _ _).mpr hc.2⟩)]
            simp
        · -- the second streak has length at least 2
          rw [ht0e, ht1e]
          rw [if_neg (by simp [ht1e]), acceptOne_long_right]
          simp
      · -- the first streak has length at least 2
        rw [ht0e]
        rw [if_neg (by simp [ht0e]), acceptOne_long_left]
        simp
    · -- the query read differs from the common read of the streaks
      have hm0 : ¬ (m0.orientedReadId == o) = true := by simpa using fun h => ho h.symm
      have hm1 : ¬ (m1.orientedReadId == o) = true := by
        simpa [hv] using fun h => ho h.symm
      have hfc0 : (m0 :: t0).filter (fun m => m.orientedReadId == o)
          = t0.filter (fun m => m.orientedReadId == o) := List.filter_cons_of_neg hm0
      have hfc1 : (m1 :: t1).filter (fun m => m.orientedReadId == o)
          = t1.filter (fun m => m.orientedReadId == o) := List.filter_cons_of_neg hm1
      rw [hfc0, hfc1]
      have hft0 : t0.filter (fun m => m.orientedReadId == o)
          = (t0.dropWhile (fun m => m.orientedReadId == m0.orientedReadId)).filter
              (fun m => m.orientedReadId == o) := by
        conv_lhs => rw [← List.takeWhile_append_dropWhile
          (p := fun m => m.orientedReadId == m0.orientedReadId) (l := t0)]
        rw [List.filter_append, filter_takeWhile_ne o m0.orientedReadId ho t0,
          List.nil_append]
      have hft1 : t1.filter (fun m => m.orientedReadId == o)
          = (t1.dropWhile (fun m => m.orientedReadId == m0.orientedReadId)).filter
              (fun m => m.orientedReadId == o) := by
        conv_lhs => rw [← List.takeWhile_append_dropWhile
          (p := fun m => m.orientedReadId == m0.orientedReadId) (l := t1)]
        rw [List.filter_append, filter_takeWhile_ne o m0.orientedReadId ho t1,
          List.nil_append]
      rw [hft0, hft1]
      have hnil : ((if (t0.takeWhile (fun m => m.orientedReadId == m0.orientedReadId)).length
              = 0 ∧
              (t1.takeWhile (fun m => m.orientedReadId == m0.orientedReadId)).length = 0 ∧
              m0.ordinal < m1.ordinal ∧
              interveningVertexFound env m0.markerId m1.markerId = false then
            ([(makeSequence env m0.orientedReadId (env.markerPosition m0.markerId)
                (env.markerPosition m1.markerId),
              { orientedReadId := m0.orientedReadId, ordinal0 := m0.ordinal,
                ordinal1 := m1.ordinal })] : List (ShSequence × Info))
          else []).map Prod.snd).filter (fun i => i.orientedReadId == o) = [] := by
        split
        · simp [hm0]
        · simp
      rw [hnil, List.nil_append]

/-- Every accepted observation of the merge scan comes from one marker
occurrence in each vertex list, for the same oriented read, with increasing
ordinals, and its sequence is `makeSequence` at the two marker positions. -/
theorem mergeScan_provenance (env : Env) (l0 l1 : List MarkerInfo) :
    ∀ si ∈ mergeScan env l0 l1, ∃ m0, m0 ∈ l0 ∧ ∃ m1, m1 ∈ l1 ∧
      m1.orientedReadId = m0.orientedReadId ∧ m0.ordinal < m1.ordinal ∧
      si.2 = { orientedReadId := m0.orientedReadId, ordinal0 := m0.ordinal,
               ordinal1 := m1.ordinal } ∧
      si.1 = makeSequence env m0.orientedReadId (env.markerPosition m0.markerId)
        (env.markerPosition m1.markerId) := by
  induction l0, l1 using mergeScan.induct env with
  | case1 l1 =>
    intro si h
    simp [mergeScan] at h
  | case2 m0 t0 =>
    intro si h
    simp [mergeScan] at h
  | case3 m0 t0 m1 t1 hlt ih =>
    intro si h
    rw [show mergeScan env (m0 :: t0) (m1 :: t1) = mergeScan env t0 (m1 :: t1) by
      rw [mergeScan]; rw [if_pos hlt]] at h
    obtain ⟨a, ha, rest⟩ := ih si h
    exact ⟨a, List.mem_cons_of_mem _ ha, rest⟩
  | case4 m0 t0 m1 t1 hge hlt ih =>
    intro si h
    rw [show mergeScan env (m0 :: t0) (m1 :: t1) = mergeScan env (m0 :: t0) t1 by
      rw [mergeScan]; rw [if_neg hge, if_pos hlt]] at h
    obtain ⟨a, ha, b, hb, rest⟩ := ih si h
    exact ⟨a, ha, b, List.mem_cons_of_mem _ hb, rest⟩
  | case5 m0 t0 m1 t1 hge1 hge2 ov r0 r1 ih =>
    intro si h
    have hv : m1.orientedReadId = m0.orientedReadId :=
      OrientedReadId.value_inj (Nat.le_antisymm (Nat.le_of_not_lt hge1) (Nat.le_of_not_lt hge2))
    rw [show mergeScan env (m0 :: t0) (m1 :: t1) =
        (if (t0.takeWhile (fun m => m.orientedReadId == m0.orientedReadId)).length = 0 ∧
            (t1.takeWhile (fun m => m.orientedReadId == m0.orientedReadId)).length = 0 ∧
            m0.ordinal < m1.ordinal ∧
            interveningVertexFound env m0.markerId m1.markerId = false then
          [(makeSequence env m0.orientedReadId (env.markerPosition m0.markerId)
              (env.markerPosition m1.markerId),
            { orientedReadId := m0.orientedReadId, ordinal0 := m0.ordinal,
              ordinal1 := m1.ordinal })]
        else []) ++
          mergeScan env (t0.dropWhile (fun m => m.orientedReadId == m0.orientedReadId))
            (t1.dropWhile (fun m => m.orientedReadId == m0.orientedReadId)) by
      rw [mergeScan]; rw [if_neg hge1, if_neg hge2]] at h
    have hrest : si ∈ mergeScan env
        (t0.dropWhile (fun m => m.orientedReadId == m0.orientedReadId))
        (t1.dropWhile (fun m => m.orientedReadId == m0.orientedReadId)) →
        ∃ m0a, m0a ∈ m0 :: t0 ∧ ∃ m1a, m1a ∈ m1 :: t1 ∧
          m1a.orientedReadId = m0a.orientedReadId ∧ m0a.ordinal < m1a.ordinal ∧
          si.2 = { orientedReadId := m0a.orientedReadId, ordinal0 := m0a.ordinal,
                   ordinal1 := m1a.ordinal } ∧
          si.1 = makeSequence env m0a.orientedReadId (env.markerPosition m0a.markerId)
            (env.markerPosition m1a.markerId) := by
      intro hm
      obtain ⟨a, ha, b, hb, rest⟩ := ih si hm
      exact ⟨a, List.mem_cons_of_mem _ ((List.dropWhile_sublist _).subset ha),
        b, List.mem_cons_of_mem _ ((List.dropWhile_sublist _).subset hb), rest⟩
    by_cases hc : (t0.takeWhile (fun m => m.orientedReadId == m0.orientedReadId)).length = 0 ∧
        (t1.takeWhile (fun m => m.orientedReadId == m0.orientedReadId)).length = 0 ∧
        m0.ordinal < m1.ordinal ∧
        interveningVertexFound env m0.markerId m1.markerId = false
    · rw [if_pos hc, List.singleton_append] at h
      rcases List.mem_cons.mp h with rfl | h
      · exact ⟨m0, List.mem_cons_self m0 t0, m1, List.mem_cons_self m1 t1, hv,
          hc.2.2.1, rfl, rfl⟩
      · exact hrest h
    · rw [if_neg hc, List.nil_append] at h
      exact hrest h

theorem foldl_tableInsert_congr (env : Env) :
    ∀ (xs : List (ShSequence × Info)) (acc : List (ShSequence × List Info)),
      (∀ si ∈ xs, seqOfInfo env si.2 = si.1) →
      (xs.map Prod.snd).foldl (fun t i => tableInsert (seqOfInfo env i) i t) acc
        = xs.foldl (fun t si => tableInsert si.1 si.2 t) acc := by
  intro xs
  induction xs with
  | nil =>
    intro acc h
    rfl
  | cons x t ih =>
    intro acc h
    simp only [List.map_cons, List.foldl_cons]
    rw [h x (List.mem_cons_self x t)]
    exact ih _ (fun si hsi => h si (List.mem_cons_of_mem _ hsi))

/-- C8: if the `infoVector` given to the precomputed-observations overload of
`storeEdgeInfo` is exactly the observation list the vertex-scan overload
accepts, both overloads store identical `infos`: the same groups, with the
same contents, in the same order. The hypothesis states that the two marker
lookup paths (by global marker id, and by (oriented read, ordinal)) agree on
the vertices' markers, which is how the external marker store is indexed. -/
theorem storeEdgeInfo_overloads_agree (env : Env) (l0 l1 : List MarkerInfo)
    (coh : ∀ m : MarkerInfo, m ∈ l0 ∨ m ∈ l1 →
      env.markerPositionByOrd m.orientedReadId.getValue m.ordinal
        = env.markerPosition m.markerId) :
    storeEdgeInfoFromInfos env ((mergeScan env l0 l1).map Prod.snd)
      = storeEdgeInfoFromVertices env l0 l1 := by
  unfold storeEdgeInfoFromInfos storeEdgeInfoFromVertices
  have hall : ∀ si ∈ mergeScan env l0 l1, seqOfInfo env si.2 = si.1 := by
    intro si hsi
    obtain ⟨m0, hm0, m1, hm1, hvv, hord, hinfo, hseq⟩ := mergeScan_provenance env l0 l1 si hsi
    rw [hinfo, hseq]
    unfold seqOfInfo
    have h0 : env.markerPositionByOrd m0.orientedReadId.getValue m0.ordinal
        = env.markerPosition m0.markerId := coh m0 (Or.inl hm0)
    have h1 : env.markerPositionByOrd m0.orientedReadId.getValue m1.ordinal
        = env.markerPosition m1.markerId := by
      rw [← hvv]
      exact coh m1 (Or.inr hm1)
    simp only []
    rw [h0, h1]
  rw [foldl_tableInsert_congr env (mergeScan env l0 l1) [] hall]

theorem sub32_eq (a b : Nat) (ha : a < U32) (hb : b ≤ a) : sub32 a b = a - b := by
  simp only [sub32, U32] at *
  omega

theorem buildBases_eq_range' (env : Env) (o : OrientedReadId) (rl : Nat) :
    ∀ count position, buildBases env o rl count position
      = (List.range' position count).map (fun p => strandBase env o rl p) := by
  intro count
  induction count with
  | zero =>
    intro position
    rfl
  | succ c ih =>
    intro position
    rw [List.range'_succ]
    simp only [buildBases, List.map_cons]
    rw [ih (position + 1)]

theorem buildBases_length (env : Env) (o : OrientedReadId) (rl : Nat) :
    ∀ count position, (buildBases env o rl count position).length = count := by
  intro count
  induction count with
  | zero => intro position; rfl
  | succ c ih =>
    intro position
    simp only [buildBases, List.length_cons, ih]

theorem strandBase_plain (env : Env) (o : OrientedReadId) (len position : Nat)
    (hU : len < U32) (h1 : 1 ≤ len) (hp : position ≤ len - 1) :
    strandBase env o len position
      = if o.getStrand = 0 then env.readBase o.getReadId position
        else (env.readBase o.getReadId (len - 1 - position)).complementInPlace := by
  unfold strandBase
  rw [sub32_eq len 1 hU h1, sub32_eq (len - 1) position (by omega) hp]

theorem makeSequence_gap (env : Env) (o : OrientedReadId) (p0 p1 : Nat)
    (hgap : p0 + env.k < p1) (hlen : p1 ≤ env.readBaseCount o.getReadId)
    (hU : env.readBaseCount o.getReadId < U32) :
    makeSequence env o p0 p1 = ⟨0,
      (List.range' (p0 + env.k) (p1 - (p0 + env.k))).map
        (fun position => if o.getStrand = 0 then env.readBase o.getReadId position
          else (env.readBase o.getReadId
            (env.readBaseCount o.getReadId - 1 - position)).complementInPlace)⟩ := by
  unfold makeSequence
  rw [if_neg (by omega)]
  have hmod : env.readBaseCount o.getReadId % U32 = env.readBaseCount o.getReadId :=
    Nat.mod_eq_of_lt hU
  rw [hmod, buildBases_eq_range' env o _ (p1 - (p0 + env.k)) (p0 + env.k)]
  congr 1
  apply List.map_congr_left
  intro p hp
  obtain ⟨hp1, hp2⟩ := List.mem_range'_1.mp hp
  exact strandBase_plain env o _ p hU (by omega) (by omega)

/-- C4: every accepted observation whose markers neither overlap nor abut
stores the literal run of bases at read positions `position0 + k` up to
(excluding) `position1`, read forward on strand 0 and as
`readLength - 1 - position` complemented on strand 1. The two numeric
hypotheses say the markers lie within the read and the read length fits in
32 bits, so no unsigned wrap-around occurs. -/
theorem storeEdgeInfo_gap_sequence (env : Env) (l0 l1 : List MarkerInfo) :
    ∀ si ∈ mergeScan env l0 l1, ∃ m0, m0 ∈ l0 ∧ ∃ m1, m1 ∈ l1 ∧
      si.2 = { orientedReadId := m0.orientedReadId, ordinal0 := m0.ordinal,
               ordinal1 := m1.ordinal } ∧
      (env.markerPosition m0.markerId + env.k < env.markerPosition m1.markerId →
       env.markerPosition m1.markerId
           ≤ env.readBaseCount m0.orientedReadId.getReadId →
       env.readBaseCount m0.orientedReadId.getReadId < U32 →
       si.1.overlappingBaseCount = 0 ∧
       si.1.sequence = (List.range' (env.markerPosition m0.markerId + env.k)
           (env.markerPosition m1.markerId
             - (env.markerPosition m0.markerId + env.k))).map
         (fun position =>
           if m0.orientedReadId.getStrand = 0 then
             env.readBase m0.orientedReadId.getReadId position
           else
             (env.readBase m0.orientedReadId.getReadId
               (env.readBaseCount m0.orientedReadId.getReadId - 1
                 - position)).complementInPlace)) := by
  intro si hsi
  obtain ⟨m0, hm0, m1, hm1, hvv, hord, hinfo, hseq⟩ := mergeScan_provenance env l0 l1 si hsi
  refine ⟨m0, hm0, m1, hm1, hinfo, ?_⟩
  intro hgap hlen hU
  rw [hseq, makeSequence_gap env m0.orientedReadId _ _ hgap hlen hU]
  exact ⟨rfl, rfl⟩

/-- C5 (amended): every accepted observation whose markers overlap or abut
stores `(position0 + k - position1) % 256` — the `uint8_t` cast truncates
modulo 256, it does not clamp. -/
theorem storeEdgeInfo_overlap_truncates (env : Env) (l0 l1 : List MarkerInfo) :
    ∀ si ∈ mergeScan env l0 l1, ∃ m0, m0 ∈ l0 ∧ ∃ m1, m1 ∈ l1 ∧
      si.2 = { orientedReadId := m0.orientedReadId, ordinal0 := m0.ordinal,
               ordinal1 := m1.ordinal } ∧
      (env.markerPosition m1.markerId ≤ env.markerPosition m0.markerId + env.k →
        si.1 = { overlappingBaseCount := (env.markerPosition m0.markerId + env.k
            - env.markerPosition m1.markerId) % 256, sequence := [] }) := by
  intro si hsi
  obtain ⟨m0, hm0, m1, hm1, hvv, hord, hinfo, hseq⟩ := mergeScan_provenance env l0 l1 si hsi
  refine ⟨m0, hm0, m1, hm1, hinfo, ?_⟩
  intro hover
  rw [hseq]
  unfold makeSequence
  rw [if_pos hover]

/-- C5 (counterexample): with `k = 300` and marker positions 0 and 44 the
overlap is 256 bases; the code stores `overlappingBaseCount = 0`
(256 mod 256), while clamping to 8 bits would store 255. This refutes the
claim that the stored value is clamped rather than truncated. -/
theorem overlap_clamp_counterexample :
    (mergeScan envC5 wL50 wL51).map Prod.fst
      = [{ overlappingBaseCount := 0, sequence := [] }] ∧
    envC5.markerPosition 0 + envC5.k - envC5.markerPosition 1 = 256 ∧
    min (envC5.markerPosition 0 + envC5.k - envC5.markerPosition 1) 255 = 255 ∧
    (0 : Nat) ≠ 255 := by
  refine ⟨?_, by norm_num [envC5], by norm_num [envC5], by norm_num⟩
  simp [mergeScan, envC5, wL50, wL51, makeSequence, interveningVertexFound]

theorem ShBase.code_inj : ∀ a b : ShBase, a.code = b.code → a = b := by
  intro a b h
  cases a <;> cases b <;> first
    | rfl
    | (exfalso; simp [ShBase.code] at h)

theorem baseListLt_irrefl : ∀ l : List ShBase, baseListLt l l = false := by
  intro l
  induction l with
  | nil => rfl
  | cons a t ih => simp [baseListLt, ih]

theorem baseListLt_antisymm : ∀ a b : List ShBase,
    baseListLt a b = false → baseListLt b a = false → a = b := by
  intro a
  induction a with
  | nil =>
    intro b h1 _
    cases b with
    | nil => rfl
    | cons y t => exact absurd h1 (by simp [baseListLt])
  | cons x s ih =>
    intro b h1 h2
    cases b with
    | nil => exact absurd h2 (by simp [baseListLt])
    | cons y t =>
      simp only [baseListLt] at h1 h2
      by_cases hxy : x.code < y.code
      · rw [if_pos hxy] at h1
        cases h1
      · rw [if_neg hxy] at h1
        by_cases hyx : y.code < x.code
        · rw [if_pos hyx] at h2
          cases h2
        · rw [if_neg hyx] at h1
          rw [if_neg hyx, if_neg hxy] at h2
          have hx : x = y := ShBase.code_inj x y (by omega)
          rw [hx, ih t h1 h2]

theorem seqLt_eq_iff : ∀ s t : ShSequence,
    (seqLt s t = false ∧ seqLt t s = false) ↔ s = t := by
  intro s t
  constructor
  · rintro ⟨h1, h2⟩
    unfold seqLt at h1 h2
    by_cases hc : s.overlappingBaseCount < t.overlappingBaseCount
    · rw [if_pos hc] at h1
      cases h1
    · rw [if_neg hc] at h1
      by_cases hd : t.overlappingBaseCount < s.overlappingBaseCount
      · rw [if_pos hd] at h2
        cases h2
      · rw [if_neg hd] at h1
        rw [if_neg hd, if_neg hc] at h2
        obtain ⟨c1, l1⟩ := s
        obtain ⟨c2, l2⟩ := t
        simp only at hc hd h1 h2 ⊢
        have : c1 = c2 := by omega
        rw [this, baseListLt_antisymm l1 l2 h1 h2]
  · rintro rfl
    unfold seqLt
    rw [if_neg (Nat.lt_irrefl _), if_neg (Nat.lt_irrefl _), baseListLt_irrefl]
    exact ⟨rfl, rfl⟩

/-- C7: every `Sequence` produced by `storeEdgeInfo` has exactly one of the
two representations (an overlap count with an empty base list, or a non-empty
base list with count 0); markers that exactly abut yield `⟨0, []⟩`; the
modelled `std::map` key order identifies two sequences exactly when they are
equal, so the abut value is never the key of any non-empty insertion. -/
theorem sequence_representation_exclusive :
    (∀ (env : Env) (o : OrientedReadId) (p0 p1 : Nat),
        (makeSequence env o p0 p1).sequence = [] ∨
        ((makeSequence env o p0 p1).overlappingBaseCount = 0 ∧
          (makeSequence env o p0 p1).sequence ≠ [])) ∧
    (∀ (env : Env) (o : OrientedReadId) (p0 p1 : Nat),
        p1 = p0 + env.k → makeSequence env o p0 p1 = ⟨0, []⟩) ∧
    (∀ (env : Env) (l0 l1 : List MarkerInfo), ∀ si ∈ mergeScan env l0 l1,
        ∃ o p0 p1, si.1 = makeSequence env o p0 p1) ∧
    (∀ s t : ShSequence, (seqLt s t = false ∧ seqLt t s = false) ↔ s = t) ∧
    (∀ s t : ShSequence, s.sequence = [] → t.sequence ≠ [] → s ≠ t) := by
  refine ⟨?_, ?_, ?_, seqLt_eq_iff, ?_⟩
  · intro env o p0 p1
    unfold makeSequence
    by_cases hover : p1 ≤ p0 + env.k
    · rw [if_pos hover]
      exact Or.inl rfl
    · rw [if_neg hover]
      refine Or.inr ⟨rfl, ?_⟩
      intro h
      have hlen := congrArg List.length h
      rw [buildBases_length] at hlen
      simp at hlen
      omega
  · intro env o p0 p1 habut
    unfold makeSequence
    rw [if_pos (by omega)]
    have : p0 + env.k - p1 = 0 := by omega
    rw [this]
  · intro env l0 l1 si hsi
    obtain ⟨m0, _, m1, _, _, _, _, hseq⟩ := mergeScan_provenance env l0 l1 si hsi
    exact ⟨m0.orientedReadId, env.markerPosition m0.markerId,
      env.markerPosition m1.markerId, hseq⟩
  · intro s t hs ht heq
    rw [heq] at hs
    exact ht hs

theorem mergeScan_read_characterization_witness :
    SortedByRead wL0 ∧ SortedByRead wL1 ∧
    ((mergeScan wEnv wL0 wL1).map Prod.snd).filter
        (fun i => i.orientedReadId == (⟨4⟩ : OrientedReadId))
      = acceptOne wEnv (wL0.filter (fun m => m.orientedReadId == (⟨4⟩ : OrientedReadId)))
          (wL1.filter (fun m => m.orientedReadId == (⟨4⟩ : OrientedReadId))) :=
  ⟨by decide, by decide,
    mergeScan_read_characterization wEnv wL0 wL1 (by decide) (by decide) ⟨4⟩⟩

theorem storeEdgeInfo_gap_sequence_witness :
    siW ∈ mergeScan wEnv wL0 wL1 ∧
    (∃ m0, m0 ∈ wL0 ∧ ∃ m1, m1 ∈ wL1 ∧
      siW.2 = { orientedReadId := m0.orientedReadId, ordinal0 := m0.ordinal,
                ordinal1 := m1.ordinal } ∧
      (wEnv.markerPosition m0.markerId + wEnv.k < wEnv.markerPosition m1.markerId →
       wEnv.markerPosition m1.markerId
           ≤ wEnv.readBaseCount m0.orientedReadId.getReadId →
       wEnv.readBaseCount m0.orientedReadId.getReadId < U32 →
       siW.1.overlappingBaseCount = 0 ∧
       siW.1.sequence = (List.range' (wEnv.markerPosition m0.markerId + wEnv.k)
           (wEnv.markerPosition m1.markerId
             - (wEnv.markerPosition m0.markerId + wEnv.k))).map
         (fun position =>
           if m0.orientedReadId.getStrand = 0 then
             wEnv.readBase m0.orientedReadId.getReadId position
           else
             (wEnv.readBase m0.orientedReadId.getReadId
               (wEnv.readBaseCount m0.orientedReadId.getReadId - 1
                 - position)).complementInPlace))) := by
  have hmem : siW ∈ mergeScan wEnv wL0 wL1 := by
    simp [mergeScan, wEnv, wL0, wL1, siW, makeSequence, buildBases, strandBase,
      interveningVertexFound, OrientedReadId.getStrand, OrientedReadId.getReadId]
  exact ⟨hmem, storeEdgeInfo_gap_sequence wEnv wL0 wL1 siW hmem⟩

theorem storeEdgeInfo_overlap_truncates_witness :
    siW5 ∈ mergeScan envC5 wL50 wL51 ∧
    (∃ m0, m0 ∈ wL50 ∧ ∃ m1, m1 ∈ wL51 ∧
      siW5.2 = { orientedReadId := m0.orientedReadId, ordinal0 := m0.ordinal,
                 ordinal1 := m1.ordinal } ∧
      (envC5.markerPosition m1.markerId
          ≤ envC5.markerPosition m0.markerId + envC5.k →
        siW5.1 = { overlappingBaseCount := (envC5.markerPosition m0.markerId + envC5.k
            - envC5.markerPosition m1.markerId) % 256, sequence := [] })) := by
  have hmem : siW5 ∈ mergeScan envC5 wL50 wL51 := by
    simp [mergeScan, envC5, wL50, wL51, siW5, makeSequence, interveningVertexFound]
  exact ⟨hmem, storeEdgeInfo_overlap_truncates envC5 wL50 wL51 siW5 hmem⟩

theorem storeEdgeInfo_overloads_agree_witness :
    storeEdgeInfoFromInfos wEnv ((mergeScan wEnv wL0 wL1).map Prod.snd)
      = storeEdgeInfoFromVertices wEnv wL0 wL1 := by
  apply storeEdgeInfo_overloads_agree
  intro m hm
  rcases hm with hm | hm
  · simp only [wL0, List.mem_singleton] at hm
    subst hm
    rfl
  · simp only [wL1, List.mem_singleton] at hm
    subst hm
    rfl

/-- C9: `addVertex` with an already-present vertex id always fails (and only
then), and after a successful `addVertex` a `findVertex` of that id returns
`(true, v)` for the very vertex `addVertex` returned. `findVertex` is a pure
function of the graph state and never mutates it. -/
theorem addVertex_findVertex_spec (env : VEnv) (g : VGraph) (vertexId : Nat)
    (distance : Int) (vertexMarkers : List Nat) :
    (addVertex env g vertexId distance vertexMarkers = none
      ↔ (findVertex g vertexId).1 = true) ∧
    ((findVertex g vertexId).1 = false →
      ∃ v g2, addVertex env g vertexId distance vertexMarkers = some (v, g2) ∧
        findVertex g2 vertexId = (true, some v)) := by
  unfold addVertex findVertex
  cases hl : lookupVertex g vertexId with
  | some v =>
    constructor
    · simp
    · intro h
      simp at h
  | none =>
    constructor
    · simp
    · intro _
      refine ⟨g.vertices.length, _, rfl, ?_⟩
      have hfind : lookupVertex g vertexId = none := hl
      unfold lookupVertex at hfind ⊢
      simp only [List.find?_append]
      rw [Option.map_eq_none'.mp hfind]
      simp [List.find?]

theorem addVertex_findVertex_spec_witness :
    ((addVertex wVEnv wVG 7 0 [] = none ↔ (findVertex wVG 7).1 = true) ∧
     ((findVertex wVG 7).1 = false →
       ∃ v g2, addVertex wVEnv wVG 7 0 [] = some (v, g2) ∧
         findVertex g2 7 = (true, some v))) :=
  addVertex_findVertex_spec wVEnv wVG 7 0 []

theorem ufUnion_no_op {r : Nat → Nat} {a b : Nat} (h : r a = r b) :
    ufUnion r a b = r := by
  funext x
  unfold ufUnion
  by_cases hx : r x = r a
  · rw [if_pos hx, hx, h]
  · rw [if_neg hx]

theorem ufUnion_idem {r : Nat → Nat} (hr : ∀ x, r (r x) = r x) (a b : Nat) :
    ∀ x, ufUnion r a b (ufUnion r a b x) = ufUnion r a b x := by
  intro x
  unfold ufUnion
  by_cases hx : r x = r a
  · rw [if_pos hx]
    by_cases hb : r (r b) = r a
    · rw [if_pos hb]
    · rw [if_neg hb]
      exact hr b
  · rw [if_neg hx]
    rw [if_neg (show ¬ (r (r x) = r a) from by rw [hr x]; exact hx)]
    exact hr x

theorem ufUnion_range {n : Nat} {r : Nat → Nat} (hr : ∀ x, x < n → r x < n)
    {a b : Nat} (hb : b < n) : ∀ x, x < n → ufUnion r a b x < n := by
  intro x hx
  unfold ufUnion
  by_cases hxa : r x = r a
  · rw [if_pos hxa]
    exact hr b hb
  · rw [if_neg hxa]
    exact hr x hx

theorem numClasses_id (n : Nat) : numClasses n id = n := by
  unfold numClasses
  rw [Finset.image_id, Finset.card_range]

theorem ufUnion_image (n : Nat) (r : Nat → Nat) (a b : Nat)
    (hidem : ∀ x, r (r x) = r x) (ha : a < n) (hb : b < n) (hab : r a ≠ r b) :
    (Finset.range n).image (ufUnion r a b) = ((Finset.range n).image r).erase (r a) := by
  ext y
  simp only [Finset.mem_image, Finset.mem_erase, Finset.mem_range]
  constructor
  · rintro ⟨x, hx, rfl⟩
    unfold ufUnion
    by_cases hxa : r x = r a
    · rw [if_pos hxa]
      exact ⟨fun h => hab h.symm, b, hb, rfl⟩
    · rw [if_neg hxa]
      exact ⟨hxa, x, hx, rfl⟩
  · rintro ⟨hy, x, hx, rfl⟩
    refine ⟨x, hx, ?_⟩
    unfold ufUnion
    rw [if_neg hy]

theorem ufUnion_classes_drop (n : Nat) (r : Nat → Nat) (a b : Nat)
    (hidem : ∀ x, r (r x) = r x) (hrange : ∀ x, x < n → r x < n)
    (ha : a < n) (hb : b < n) (hab : r a ≠ r b) :
    numClasses n (ufUnion r a b) + 1 = numClasses n r := by
  unfold numClasses
  rw [ufUnion_image n r a b hidem ha hb hab]
  exact Finset.card_erase_add_one (Finset.mem_image.mpr ⟨a, Finset.mem_range.mpr ha, rfl⟩)

theorem eqvGen_congr {R1 R2 : Nat → Nat → Prop} (h : ∀ u v, R1 u v ↔ R2 u v)
    {x y : Nat} : Relation.EqvGen R1 x y ↔ Relation.EqvGen R2 x y :=
  ⟨Relation.EqvGen.mono (fun u v hr => (h u v).mp hr),
   Relation.EqvGen.mono (fun u v hr => (h u v).mpr hr)⟩

theorem eqvGen_mono_into {R1 R2 : Nat → Nat → Prop}
    (h : ∀ u v, R1 u v → Relation.EqvGen R2 u v) {x y : Nat}
    (hxy : Relation.EqvGen R1 x y) : Relation.EqvGen R2 x y := by
  induction hxy with
  | rel u v hr => exact h u v hr
  | refl u => exact Relation.EqvGen.refl u
  | symm u v _ ih => exact Relation.EqvGen.symm u v ih
  | trans u v w _ _ ih1 ih2 => exact Relation.EqvGen.trans u v w ih1 ih2

theorem eqvGen_false_iff (x y : Nat) :
    Relation.EqvGen (fun _ _ : Nat => False) x y ↔ x = y := by
  constructor
  · intro h
    induction h with
    | rel u v hr => exact absurd hr (by simp)
    | refl u => rfl
    | symm u v _ ih => exact ih.symm
    | trans u v w _ _ ih1 ih2 => exact ih1.trans ih2
  · rintro rfl
    exact Relation.EqvGen.refl x

theorem eqvGen_pair_iff (R : Nat → Nat → Prop) (a b x y : Nat) :
    Relation.EqvGen (fun u v => R u v ∨ (u = a ∧ v = b)) x y ↔
      (Relation.EqvGen R x y ∨
        (Relation.EqvGen R x a ∧ Relation.EqvGen R y b) ∨
        (Relation.EqvGen R x b ∧ Relation.EqvGen R y a)) := by
  constructor
  · intro h
    induction h with
    | rel u v hr =>
      rcases hr with hr | ⟨rfl, rfl⟩
      · exact Or.inl (Relation.EqvGen.rel u v hr)
      · exact Or.inr (Or.inl ⟨Relation.EqvGen.refl u, Relation.EqvGen.refl v⟩)
    | refl u => exact Or.inl (Relation.EqvGen.refl u)
    | symm u v _ ih =>
      rcases ih with h1 | ⟨h1, h2⟩ | ⟨h1, h2⟩
      · exact Or.inl (Relation.EqvGen.symm u v h1)
      · exact Or.inr (Or.inr ⟨h2, h1⟩)
      · exact Or.inr (Or.inl ⟨h2, h1⟩)
    | trans u v w _ _ ih1 ih2 =>
      rcases ih1 with h1 | ⟨h1, h2⟩ | ⟨h1, h2⟩
      · rcases ih2 with h3 | ⟨h3, h4⟩ | ⟨h3, h4⟩
        · exact Or.inl (Relation.EqvGen.trans _ _ _ h1 h3)
        · exact Or.inr (Or.inl ⟨Relation.EqvGen.trans _ _ _ h1 h3, h4⟩)
        · exact Or.inr (Or.inr ⟨Relation.EqvGen.trans _ _ _ h1 h3, h4⟩)
      · rcases ih2 with h3 | ⟨h3, h4⟩ | ⟨h3, h4⟩
        · exact Or.inr (Or.inl ⟨h1,
            Relation.EqvGen.trans _ _ _ (Relation.EqvGen.symm _ _ h3) h2⟩)
        · exact Or.inr (Or.inl ⟨h1, h4⟩)
        · exact Or.inl (Relation.EqvGen.trans _ _ _ h1
            (Relation.EqvGen.symm _ _ h4))
      · rcases ih2 with h3 | ⟨h3, h4⟩ | ⟨h3, h4⟩
        · exact Or.inr (Or.inr ⟨h1,
            Relation.EqvGen.trans _ _ _ (Relation.EqvGen.symm _ _ h3) h2⟩)
        · exact Or.inl (Relation.EqvGen.trans _ _ _ h1
            (Relation.EqvGen.symm _ _ h4))
        · exact Or.inr (Or.inr ⟨h1, h4⟩)
  · intro h
    have hlift : ∀ u v, Relation.EqvGen R u v →
        Relation.EqvGen (fun u v => R u v ∨ (u = a ∧ v = b)) u v :=
      fun u v h => Relation.EqvGen.mono (fun p q hr => Or.inl hr) h
    have hab : Relation.EqvGen (fun u v => R u v ∨ (u = a ∧ v = b)) a b :=
      Relation.EqvGen.rel a b (Or.inr ⟨rfl, rfl⟩)
    rcases h with h1 | ⟨h1, h2⟩ | ⟨h1, h2⟩
    · exact hlift x y h1
    · exact ((hlift x a h1).trans _ _ _ hab).trans _ _ _ ((hlift y b h2).symm _ _)
    · exact ((hlift x b h1).trans _ _ _ (hab.symm _ _)).trans _ _ _
        ((hlift y a h2).symm _ _)

theorem ufFold_idem : ∀ (ps : List (Nat × Nat)) (r : Nat → Nat),
    (∀ x, r (r x) = r x) → ∀ x, ufFold r ps (ufFold r ps x) = ufFold r ps x := by
  intro ps
  induction ps with
  | nil => exact fun r hr => hr
  | cons p t ih =>
    intro r hr
    exact ih (ufUnion r p.1 p.2) (ufUnion_idem hr p.1 p.2)

theorem ufFold_range (n : Nat) : ∀ (ps : List (Nat × Nat)) (r : Nat → Nat),
    (∀ x, x < n → r x < n) → (∀ p ∈ ps, p.2 < n) →
    ∀ x, x < n → ufFold r ps x < n := by
  intro ps
  induction ps with
  | nil => exact fun r hr _ => hr
  | cons p t ih =>
    intro r hr hps
    exact ih (ufUnion r p.1 p.2)
      (ufUnion_range hr (hps p (List.mem_cons_self p t)))
      (fun q hq => hps q (List.mem_cons_of_mem _ hq))

theorem kruskalFold_uf_eq : ∀ (l : List (Nat × (Nat × Nat))) (r : Nat → Nat),
    (kruskalFold r l).1 = ufFold r (l.map Prod.snd) := by
  intro l
  induction l with
  | nil => intro r; rfl
  | cons ip t ih =>
    intro r
    simp only [kruskalFold, List.map_cons, ufFold]
    by_cases h : r ip.2.1 = r ip.2.2
    · rw [if_pos h, ufUnion_no_op h]
      exact ih r
    · rw [if_neg h]
      exact ih (ufUnion r ip.2.1 ip.2.2)

theorem kruskalFold_append : ∀ (l1 l2 : List (Nat × (Nat × Nat))) (r : Nat → Nat),
    kruskalFold r (l1 ++ l2)
      = ((kruskalFold (kruskalFold r l1).1 l2).1,
         (kruskalFold r l1).2 ++ (kruskalFold (kruskalFold r l1).1 l2).2) := by
  intro l1
  induction l1 with
  | nil => intro l2 r; rfl
  | cons ip t ih =>
    intro l2 r
    simp only [List.cons_append, kruskalFold]
    by_cases h : r ip.2.1 = r ip.2.2
    · rw [if_pos h, if_pos h]
      exact ih l2 r
    · rw [if_neg h, if_neg h]
      simp only [List.append_eq]
      rw [ih l2 (ufUnion r ip.2.1 ip.2.2)]
      simp

theorem kruskalFold_accepted_sublist : ∀ (l : List (Nat × (Nat × Nat))) (r : Nat → Nat),
    (kruskalFold r l).2.Sublist l := by
  intro l
  induction l with
  | nil => intro r; simp [kruskalFold]
  | cons ip t ih =>
    intro r
    simp only [kruskalFold]
    by_cases h : r ip.2.1 = r ip.2.2
    · rw [if_pos h]
      exact (ih r).cons ip
    · rw [if_neg h]
      exact (ih (ufUnion r ip.2.1 ip.2.2)).cons₂ ip

theorem kruskalFold_replay : ∀ (l : List (Nat × (Nat × Nat))) (r : Nat → Nat),
    (kruskalFold r l).1 = ufFold r ((kruskalFold r l).2.map Prod.snd) ∧
    AllMerge r ((kruskalFold r l).2.map Prod.snd) := by
  intro l
  induction l with
  | nil => intro r; exact ⟨rfl, trivial⟩
  | cons ip t ih =>
    intro r
    simp only [kruskalFold]
    by_cases h : r ip.2.1 = r ip.2.2
    · rw [if_pos h]
      exact ih r
    · rw [if_neg h]
      simp only [List.map_cons]
      refine ⟨?_, h, (ih (ufUnion r ip.2.1 ip.2.2)).2⟩
      simp only [ufFold]
      exact (ih (ufUnion r ip.2.1 ip.2.2)).1

theorem kruskalFold_count (n : Nat) :
    ∀ (l : List (Nat × (Nat × Nat))) (r : Nat → Nat),
    (∀ x, r (r x) = r x) → (∀ x, x < n → r x < n) →
    (∀ ip ∈ l, ip.2.1 < n ∧ ip.2.2 < n) →
    numClasses n (kruskalFold r l).1 + (kruskalFold r l).2.length = numClasses n r := by
  intro l
  induction l with
  | nil => intro r _ _ _; rfl
  | cons ip t ih =>
    intro r hidem hrange hwf
    have hip := hwf ip (List.mem_cons_self ip t)
    have hwt : ∀ q ∈ t, q.2.1 < n ∧ q.2.2 < n :=
      fun q hq => hwf q (List.mem_cons_of_mem _ hq)
    simp only [kruskalFold]
    by_cases h : r ip.2.1 = r ip.2.2
    · rw [if_pos h]
      exact ih r hidem hrange hwt
    · rw [if_neg h]
      simp only [List.length_cons]
      have hrec := ih (ufUnion r ip.2.1 ip.2.2) (ufUnion_idem hidem _ _)
        (ufUnion_range hrange hip.2) hwt
      have hdrop := ufUnion_classes_drop n r ip.2.1 ip.2.2 hidem hrange hip.1 hip.2 h
      omega

theorem allMerge_count (n : Nat) :
    ∀ (ps : List (Nat × Nat)) (r : Nat → Nat),
    (∀ x, r (r x) = r x) → (∀ x, x < n → r x < n) →
    (∀ p ∈ ps, p.1 < n ∧ p.2 < n) → AllMerge r ps →
    numClasses n (ufFold r ps) + ps.length = numClasses n r := by
  intro ps
  induction ps with
  | nil => intro r _ _ _ _; rfl
  | cons p t ih =>
    intro r hidem hrange hwf hm
    obtain ⟨hne, hm⟩ := hm
    have hp := hwf p (List.mem_cons_self p t)
    simp only [ufFold, List.length_cons]
    have hrec := ih (ufUnion r p.1 p.2) (ufUnion_idem hidem _ _)
      (ufUnion_range hrange hp.2) (fun q hq => hwf q (List.mem_cons_of_mem _ hq)) hm
    have hdrop := ufUnion_classes_drop n r p.1 p.2 hidem hrange hp.1 hp.2 hne
    omega

theorem ufFold_count_ge (n : Nat) :
    ∀ (ps : List (Nat × Nat)) (r : Nat → Nat),
    (∀ x, r (r x) = r x) → (∀ x, x < n → r x < n) →
    (∀ p ∈ ps, p.1 < n ∧ p.2 < n) →
    numClasses n r ≤ numClasses n (ufFold r ps) + ps.length := by
  intro ps
  induction ps with
  | nil => intro r _ _ _; simp [ufFold]
  | cons p t ih =>
    intro r hidem hrange hwf
    have hp := hwf p (List.mem_cons_self p t)
    simp only [ufFold, List.length_cons]
    have hrec := ih (ufUnion r p.1 p.2) (ufUnion_idem hidem _ _)
      (ufUnion_range hrange hp.2) (fun q hq => hwf q (List.mem_cons_of_mem _ hq))
    by_cases h : r p.1 = r p.2
    · rw [ufUnion_no_op h] at hrec ⊢
      omega
    · have hdrop := ufUnion_classes_drop n r p.1 p.2 hidem hrange hp.1 hp.2 h
      omega

theorem ufUnion_eq_iff (r : Nat → Nat) (a b x y : Nat) :
    ufUnion r a b x = ufUnion r a b y ↔
      (r x = r y ∨ (r x = r a ∧ r y = r b) ∨ (r x = r b ∧ r y = r a)) := by
  unfold ufUnion
  by_cases hx : r x = r a
  · rw [if_pos hx]
    by_cases hy : r y = r a
    · rw [if_pos hy]
      constructor
      · intro _
        exact Or.inl (hx.trans hy.symm)
      · intro _
        rfl
    · rw [if_neg hy]
      constructor
      · intro h
        exact Or.inr (Or.inl ⟨hx, h.symm⟩)
      · rintro (h | ⟨h1, h2⟩ | ⟨h1, h2⟩)
        · exact absurd (h ▸ hx) hy
        · exact h2.symm
        · exact absurd h2 hy
  · rw [if_neg hx]
    by_cases hy : r y = r a
    · rw [if_pos hy]
      constructor
      · intro h
        exact Or.inr (Or.inr ⟨h, hy⟩)
      · rintro (h | ⟨h1, h2⟩ | ⟨h1, h2⟩)
        · exact absurd (h.symm ▸ hy) hx
        · exact absurd h1 hx
        · exact h1
    · rw [if_neg hy]
      constructor
      · intro h
        exact Or.inl h
      · rintro (h | ⟨h1, h2⟩ | ⟨h1, h2⟩)
        · exact h
        · exact absurd h1 hx
        · exact absurd h2 hy

theorem PRel_nil (u v : Nat) : ¬ PRel [] u v := by
  rintro ⟨p, hp, _⟩
  exact absurd hp (List.not_mem_nil p)

theorem PRel_mem_congr {ps1 ps2 : List (Nat × Nat)}
    (h : ∀ q, q ∈ ps1 ↔ q ∈ ps2) (u v : Nat) : PRel ps1 u v ↔ PRel ps2 u v := by
  unfold PRel
  constructor
  · rintro ⟨p, hp, hd⟩
    exact ⟨p, (h p).mp hp, hd⟩
  · rintro ⟨p, hp, hd⟩
    exact ⟨p, (h p).mpr hp, hd⟩

theorem eqvGen_PRel_cons (p : Nat × Nat) (ps : List (Nat × Nat)) (x y : Nat) :
    Relation.EqvGen (PRel (p :: ps)) x y ↔
      (Relation.EqvGen (PRel ps) x y ∨
        (Relation.EqvGen (PRel ps) x p.1 ∧ Relation.EqvGen (PRel ps) y p.2) ∨
        (Relation.EqvGen (PRel ps) x p.2 ∧ Relation.EqvGen (PRel ps) y p.1)) := by
  rw [show (Relation.EqvGen (PRel (p :: ps)) x y ↔
      Relation.EqvGen (fun u v => PRel ps u v ∨ (u = p.1 ∧ v = p.2)) x y) from ?_]
  · exact eqvGen_pair_iff (PRel ps) p.1 p.2 x y
  · constructor
    · apply eqvGen_mono_into
      rintro u v ⟨q, hq, hd⟩
      rcases List.mem_cons.mp hq with rfl | hq
      · rcases hd with ⟨h1, h2⟩ | ⟨h1, h2⟩
        · exact Relation.EqvGen.rel u v (Or.inr ⟨h1.symm, h2.symm⟩)
        · exact Relation.EqvGen.symm _ _
            (Relation.EqvGen.rel v u (Or.inr ⟨h1.symm, h2.symm⟩))
      · exact Relation.EqvGen.rel u v (Or.inl ⟨q, hq, hd⟩)
    · apply eqvGen_mono_into
      rintro u v (hr | ⟨rfl, rfl⟩)
      · obtain ⟨q, hq, hd⟩ := hr
        exact Relation.EqvGen.rel u v ⟨q, List.mem_cons_of_mem _ hq, hd⟩
      · exact Relation.EqvGen.rel _ _ ⟨p, List.mem_cons_self p ps, Or.inl ⟨rfl, rfl⟩⟩

theorem ufFold_conn : ∀ (ps : List (Nat × Nat)) (r : Nat → Nat) (R : Nat → Nat → Prop),
    (∀ x y, r x = r y ↔ Relation.EqvGen R x y) →
    ∀ x y, ufFold r ps x = ufFold r ps y ↔
      Relation.EqvGen (fun u v => R u v ∨ PRel ps u v) x y := by
  intro ps
  induction ps with
  | nil =>
    intro r R hconn x y
    rw [show ufFold r [] = r from rfl, hconn x y]
    exact eqvGen_congr (fun u v => by simp [PRel_nil u v])
  | cons p t ih =>
    intro r R hconn x y
    rw [show ufFold r (p :: t) = ufFold (ufUnion r p.1 p.2) t from rfl]
    have hconn2 : ∀ u v, ufUnion r p.1 p.2 u = ufUnion r p.1 p.2 v ↔
        Relation.EqvGen (fun a b => R a b ∨ (a = p.1 ∧ b = p.2)) u v := by
      intro u v
      rw [ufUnion_eq_iff, eqvGen_pair_iff, hconn, hconn, hconn, hconn, hconn]
    rw [ih (ufUnion r p.1 p.2) _ hconn2 x y]
    constructor
    · apply eqvGen_mono_into
      rintro u v ((hr | ⟨rfl, rfl⟩) | hp)
      · exact Relation.EqvGen.rel u v (Or.inl hr)
      · exact Relation.EqvGen.rel _ _
          (Or.inr ⟨p, List.mem_cons_self p t, Or.inl ⟨rfl, rfl⟩⟩)
      · obtain ⟨q, hq, hd⟩ := hp
        exact Relation.EqvGen.rel u v (Or.inr ⟨q, List.mem_cons_of_mem _ hq, hd⟩)
    · apply eqvGen_mono_into
      rintro u v (hr | ⟨q, hq, hd⟩)
      · exact Relation.EqvGen.rel u v (Or.inl (Or.inl hr))
      · rcases List.mem_cons.mp hq with rfl | hq
        · rcases hd with ⟨h1, h2⟩ | ⟨h1, h2⟩
          · exact Relation.EqvGen.rel u v (Or.inl (Or.inr ⟨h1.symm, h2.symm⟩))
          · exact Relation.EqvGen.symm _ _
              (Relation.EqvGen.rel v u (Or.inl (Or.inr ⟨h1.symm, h2.symm⟩)))
        · exact Relation.EqvGen.rel u v (Or.inr ⟨q, hq, hd⟩)

theorem chainV_conn (ps : List (Nat × Nat)) :
    ∀ (used : List ((Nat × Nat) × Bool)) (x y : Nat), chainV used x y →
    (∀ q ∈ used.map Prod.fst, q ∈ ps) → Relation.EqvGen (PRel ps) x y := by
  intro used
  induction used with
  | nil =>
    intro x y hc _
    rw [show chainV [] x y = (x = y) from rfl] at hc
    exact hc ▸ Relation.EqvGen.refl x
  | cons s t ih =>
    intro x y hc hmem
    have hs : s.1 ∈ ps := hmem s.1 (by simp)
    have hmt : ∀ q ∈ t.map Prod.fst, q ∈ ps := by
      intro q hq
      exact hmem q (by simp only [List.map_cons, List.mem_cons]; exact Or.inr hq)
    rw [show chainV (s :: t) x y =
        (if s.2 then s.1.1 = x ∧ chainV t s.1.2 y
         else s.1.2 = x ∧ chainV t s.1.1 y) from rfl] at hc
    by_cases hd : s.2
    · rw [if_pos hd] at hc
      obtain ⟨hx, hrest⟩ := hc
      refine Relation.EqvGen.trans x s.1.2 y ?_ (ih s.1.2 y hrest hmt)
      exact Relation.EqvGen.rel x s.1.2 ⟨s.1, hs, Or.inl ⟨hx, rfl⟩⟩
    · rw [if_neg hd] at hc
      obtain ⟨hx, hrest⟩ := hc
      refine Relation.EqvGen.trans x s.1.1 y ?_ (ih s.1.1 y hrest hmt)
      exact Relation.EqvGen.rel x s.1.1 ⟨s.1, hs, Or.inr ⟨rfl, hx⟩⟩

theorem numClasses_congr (n : Nat) (r1 r2 : Nat → Nat)
    (h : ∀ x y, r1 x = r1 y ↔ r2 x = r2 y) :
    numClasses n r1 = numClasses n r2 := by
  unfold numClasses
  apply Finset.card_bij (fun (a : Nat) (ha : a ∈ (Finset.range n).image r1) =>
    r2 (Classical.choose (Finset.mem_image.mp ha)))
  · intro a ha
    obtain ⟨hx, _⟩ := Classical.choose_spec (Finset.mem_image.mp ha)
    exact Finset.mem_image.mpr ⟨_, hx, rfl⟩
  · intro a1 h1 a2 h2 heq
    obtain ⟨hx1, he1⟩ := Classical.choose_spec (Finset.mem_image.mp h1)
    obtain ⟨hx2, he2⟩ := Classical.choose_spec (Finset.mem_image.mp h2)
    rw [← he1, ← he2]
    exact (h _ _).mpr heq
  · intro b hb
    obtain ⟨y, hy, hyb⟩ := Finset.mem_image.mp hb
    have hmem : r1 y ∈ (Finset.range n).image r1 := Finset.mem_image.mpr ⟨y, hy, rfl⟩
    refine ⟨r1 y, hmem, ?_⟩
    obtain ⟨hx, he⟩ := Classical.choose_spec (Finset.mem_image.mp hmem)
    rw [← hyb]
    exact (h _ _).mp he

theorem zipIdxFrom_map_fst {α : Type} : ∀ (i : Nat) (l : List α),
    (zipIdxFrom i l).map Prod.fst = List.range' i l.length := by
  intro i l
  induction l generalizing i with
  | nil => rfl
  | cons a t ih =>
    simp only [zipIdxFrom, List.map_cons, List.length_cons, List.range'_succ]
    rw [ih (i + 1)]

theorem zipIdxFrom_map_snd {α : Type} : ∀ (i : Nat) (l : List α),
    (zipIdxFrom i l).map Prod.snd = l := by
  intro i l
  induction l generalizing i with
  | nil => rfl
  | cons a t ih =>
    simp only [zipIdxFrom, List.map_cons]
    rw [ih (i + 1)]

theorem zipIdxFrom_mem {α : Type} : ∀ (i : Nat) (l : List α) (p : Nat × α),
    p ∈ zipIdxFrom i l →
    i ≤ p.1 ∧ p.1 - i < l.length ∧ l[p.1 - i]? = some p.2 := by
  intro i l
  induction l generalizing i with
  | nil =>
    intro p hp
    exact absurd hp (List.not_mem_nil p)
  | cons a t ih =>
    intro p hp
    rcases List.mem_cons.mp hp with rfl | hp
    · simp
    · obtain ⟨h1, h2, h3⟩ := ih (i + 1) p hp
      refine ⟨by omega, by simp only [List.length_cons]; omega, ?_⟩
      have : p.1 - i = (p.1 - (i + 1)) + 1 := by omega
      rw [this, List.getElem?_cons_succ]
      exact h3

theorem zipIdxFrom_mem_zero {α : Type} (l : List α) (p : Nat × α)
    (hp : p ∈ zipIdxFrom 0 l) : p.1 < l.length ∧ l[p.1]? = some p.2 := by
  obtain ⟨_, h2, h3⟩ := zipIdxFrom_mem 0 l p hp
  simpa using ⟨h2, h3⟩

theorem sortedEdgeTable_perm (g : KGraph) :
    List.Perm (sortedEdgeTable g) (zipIdxFrom 0 g.edges) :=
  List.perm_insertionSort edgeOrder (zipIdxFrom 0 g.edges)

theorem kruskalInput_mem (g : KGraph) :
    ∀ ip ∈ kruskalInput g, ip.1 < g.edges.length ∧
      ∃ e, g.edges[ip.1]? = some e ∧ ip.2 = ends e := by
  intro ip hip
  obtain ⟨p, hp, hpe⟩ := List.mem_map.mp hip
  have hpz := (sortedEdgeTable_perm g).mem_iff.mp hp
  obtain ⟨h1, h2⟩ := zipIdxFrom_mem_zero g.edges p hpz
  rw [← hpe]
  exact ⟨h1, p.2, h2, rfl⟩

theorem kruskalInput_fst_nodup (g : KGraph) :
    ((kruskalInput g).map Prod.fst).Nodup := by
  have hperm : List.Perm ((kruskalInput g).map Prod.fst)
      ((zipIdxFrom 0 g.edges).map Prod.fst) := by
    unfold kruskalInput
    rw [List.map_map]
    exact ((sortedEdgeTable_perm g).map _)
  rw [zipIdxFrom_map_fst] at hperm
  exact hperm.nodup_iff.mpr (List.nodup_range' 0 g.edges.length)

theorem kruskalInput_wf (g : KGraph)
    (wf : ∀ e ∈ g.edges, e.src < g.n ∧ e.tgt < g.n) :
    ∀ ip ∈ kruskalInput g, ip.2.1 < g.n ∧ ip.2.2 < g.n := by
  intro ip hip
  obtain ⟨_, e, he, hee⟩ := kruskalInput_mem g ip hip
  have hmem : e ∈ g.edges := by
    have := List.getElem?_eq_some_iff.mp he
    obtain ⟨h, hh⟩ := this
    exact hh ▸ List.getElem_mem h
  rw [hee]
  exact wf e hmem

theorem kruskalInput_snd_perm (g : KGraph) :
    List.Perm ((kruskalInput g).map Prod.snd) (g.edges.map ends) := by
  unfold kruskalInput
  rw [List.map_map]
  have h1 : List.Perm ((sortedEdgeTable g).map (fun p => ends p.2))
      ((zipIdxFrom 0 g.edges).map (fun p => ends p.2)) :=
    (sortedEdgeTable_perm g).map _
  have h2 : ((zipIdxFrom 0 g.edges).map (fun p : Nat × KEdge => ends p.2))
      = g.edges.map ends := by
    rw [show (fun p : Nat × KEdge => ends p.2) = ends ∘ Prod.snd from rfl,
      ← List.map_map, zipIdxFrom_map_snd]
  rw [← h2]
  exact h1

theorem ufFold_id_conn (ps : List (Nat × Nat)) :
    ∀ x y, ufFold id ps x = ufFold id ps y ↔ Relation.EqvGen (PRel ps) x y := by
  intro x y
  rw [ufFold_conn ps id (fun _ _ => False)
    (by
      intro u v
      rw [eqvGen_false_iff]
      exact Iff.rfl)]
  exact eqvGen_congr (by simp)

theorem ufFold_id_classes_congr (ps1 ps2 : List (Nat × Nat)) (n : Nat)
    (h : ∀ q, q ∈ ps1 ↔ q ∈ ps2) :
    numClasses n (ufFold id ps1) = numClasses n (ufFold id ps2) := by
  apply numClasses_congr
  intro x y
  rw [ufFold_id_conn ps1 x y, ufFold_id_conn ps2 x y]
  exact eqvGen_congr (PRel_mem_congr h)

theorem kruskalAccepted_sub_input (g : KGraph) :
    ∀ ip ∈ kruskalAccepted g, ip ∈ kruskalInput g := by
  intro ip hip
  exact (kruskalFold_accepted_sublist (kruskalInput g) id).subset hip

theorem kruskalAccepted_fst_nodup (g : KGraph) :
    ((kruskalAccepted g).map Prod.fst).Nodup :=
  List.Sublist.nodup
    ((kruskalFold_accepted_sublist (kruskalInput g) id).map Prod.fst)
    (kruskalInput_fst_nodup g)

theorem kruskalAccepted_snd_eq (g : KGraph) :
    (kruskalAccepted g).map Prod.snd
      = ((kruskalAccepted g).map Prod.fst).map (endsAt g) := by
  rw [List.map_map]
  apply List.map_congr_left
  intro ip hip
  obtain ⟨_, e, he, hee⟩ := kruskalInput_mem g ip (kruskalAccepted_sub_input g ip hip)
  simp only [Function.comp_apply, endsAt, he]
  exact hee

theorem flagged_map_ends_eq (g : KGraph) :
    ((computeOptimalSpanningTree g).edges.filter (fun e => e.isSpanningTreeEdge)).map ends
      = (((zipIdxFrom 0 g.edges).filter
          (fun p => ((kruskalAccepted g).map Prod.fst).contains p.1)).map
            Prod.fst).map (endsAt g) := by
  unfold computeOptimalSpanningTree
  simp only []
  rw [List.map_filter]
  rw [show ((fun e : KEdge => e.isSpanningTreeEdge) ∘ (fun p : Nat × KEdge =>
      { p.2 with isSpanningTreeEdge := ((kruskalAccepted g).map Prod.fst).contains p.1 }))
      = (fun p : Nat × KEdge => ((kruskalAccepted g).map Prod.fst).contains p.1) from rfl]
  rw [List.map_map]
  rw [show (ends ∘ (fun p : Nat × KEdge =>
      { p.2 with isSpanningTreeEdge := ((kruskalAccepted g).map Prod.fst).contains p.1 }))
      = (fun p : Nat × KEdge => ends p.2) from rfl]
  rw [List.map_map]
  apply List.map_congr_left
  intro p hp
  have hpz : p ∈ zipIdxFrom 0 g.edges := (List.filter_sublist _).subset hp
  obtain ⟨_, h2⟩ := zipIdxFrom_mem_zero g.edges p hpz
  simp only [Function.comp_apply, endsAt, h2]
  rfl

theorem flagged_perm (g : KGraph) :
    List.Perm
      (((computeOptimalSpanningTree g).edges.filter
        (fun e => e.isSpanningTreeEdge)).map ends)
      ((kruskalAccepted g).map Prod.snd) := by
  rw [flagged_map_ends_eq g, kruskalAccepted_snd_eq g]
  apply List.Perm.map
  have hidx : ((zipIdxFrom 0 g.edges).filter
      (fun p => ((kruskalAccepted g).map Prod.fst).contains p.1)).map Prod.fst
      = (List.range' 0 g.edges.length).filter
          (fun i => ((kruskalAccepted g).map Prod.fst).contains i) := by
    rw [← zipIdxFrom_map_fst 0 g.edges, List.map_filter]
    rfl
  rw [hidx]
  apply (List.perm_ext_iff_of_nodup
    (List.Nodup.filter _ (List.nodup_range' 0 g.edges.length))
    (kruskalAccepted_fst_nodup g)).mpr
  intro i
  rw [List.mem_filter, List.mem_range'_1]
  constructor
  · rintro ⟨_, hc⟩
    exact List.elem_iff.mp hc
  · intro hi
    refine ⟨⟨Nat.zero_le i, ?_⟩, List.elem_iff.mpr hi⟩
    obtain ⟨ip, hip, hfst⟩ := List.mem_map.mp hi
    obtain ⟨h1, _⟩ := kruskalInput_mem g ip (kruskalAccepted_sub_input g ip hip)
    simpa [hfst] using h1

theorem kruskalAccepted_pairs_wf (g : KGraph)
    (wf : ∀ e ∈ g.edges, e.src < g.n ∧ e.tgt < g.n) :
    ∀ pr ∈ (kruskalAccepted g).map Prod.snd, pr.1 < g.n ∧ pr.2 < g.n := by
  intro pr hpr
  obtain ⟨ip, hip, hsnd⟩ := List.mem_map.mp hpr
  rw [← hsnd]
  exact kruskalInput_wf g wf ip (kruskalAccepted_sub_input g ip hip)

theorem kruskal_no_cycle (g : KGraph)
    (wf : ∀ e ∈ g.edges, e.src < g.n ∧ e.tgt < g.n) :
    ¬ HasCycle (((computeOptimalSpanningTree g).edges.filter
      (fun e => e.isSpanningTreeEdge)).map ends) := by
  rintro ⟨used, x, hne, hsub, hchain⟩
  have hperm := flagged_perm g
  have hsub2 : (used.map Prod.fst).Subperm ((kruskalAccepted g).map Prod.snd) :=
    hsub.trans hperm.subperm
  cases used with
  | nil => exact hne rfl
  | cons s rest =>
    clear hne hsub
    set Apairs := (kruskalAccepted g).map Prod.snd with hApairs
    have hq0 : s.1 ∈ Apairs := hsub2.subset (by simp)
    obtain ⟨l1, l2, hsplit⟩ := List.append_of_mem hq0
    have hpe : List.Perm Apairs (s.1 :: (l1 ++ l2)) := by
      rw [hsplit]
      exact List.perm_middle
    have hrest : (rest.map Prod.fst).Subperm (l1 ++ l2) := by
      have h1 : (s.1 :: rest.map Prod.fst).Subperm Apairs := by
        simpa using hsub2
      have h2 := h1.trans hpe.subperm
      exact (List.subperm_cons s.1).mp h2
    -- the rest of the cycle connects the endpoints of s.1 without using it
    have hconn : Relation.EqvGen (PRel (l1 ++ l2)) s.1.1 s.1.2 := by
      rw [show chainV (s :: rest) x x =
          (if s.2 then s.1.1 = x ∧ chainV rest s.1.2 x
           else s.1.2 = x ∧ chainV rest s.1.1 x) from rfl] at hchain
      by_cases hd : s.2
      · rw [if_pos hd] at hchain
        obtain ⟨hx, hc⟩ := hchain
        have := chainV_conn (l1 ++ l2) rest s.1.2 x hc
          (fun q hq => hrest.subset hq)
        rw [← hx] at this
        exact Relation.EqvGen.symm _ _ this
      · rw [if_neg hd] at hchain
        obtain ⟨hx, hc⟩ := hchain
        have := chainV_conn (l1 ++ l2) rest s.1.1 x hc
          (fun q hq => hrest.subset hq)
        rw [← hx] at this
        exact this
    -- the equivalence closures with and without s.1 coincide
    have hiff : ∀ u v, Relation.EqvGen (PRel Apairs) u v ↔
        Relation.EqvGen (PRel (l1 ++ l2)) u v := by
      intro u v
      have hmemiff : ∀ q, q ∈ Apairs ↔ q ∈ s.1 :: (l1 ++ l2) :=
        fun q => hpe.mem_iff
      rw [eqvGen_congr (PRel_mem_congr hmemiff), eqvGen_PRel_cons]
      constructor
      · rintro (h | ⟨h1, h2⟩ | ⟨h1, h2⟩)
        · exact h
        · exact Relation.EqvGen.trans _ _ _
            (Relation.EqvGen.trans _ _ _ h1 hconn) (Relation.EqvGen.symm _ _ h2)
        · exact Relation.EqvGen.trans _ _ _
            (Relation.EqvGen.trans _ _ _ h1 (Relation.EqvGen.symm _ _ hconn))
            (Relation.EqvGen.symm _ _ h2)
      · intro h
        exact Or.inl h
    -- class counting
    have hwfA : ∀ pr ∈ Apairs, pr.1 < g.n ∧ pr.2 < g.n := kruskalAccepted_pairs_wf g wf
    have hwfE : ∀ pr ∈ l1 ++ l2, pr.1 < g.n ∧ pr.2 < g.n :=
      fun pr hpr => hwfA pr (hpe.mem_iff.mpr (List.mem_cons_of_mem _ hpr))
    have hcnt1 : numClasses g.n (ufFold id Apairs) + Apairs.length = g.n := by
      have hreplay := kruskalFold_replay (kruskalInput g) id
      have hmc := allMerge_count g.n Apairs id (fun _ => rfl) (fun x hx => hx) hwfA
        hreplay.2
      rw [numClasses_id] at hmc
      exact hmc
    have hcnt2 : g.n ≤ numClasses g.n (ufFold id (l1 ++ l2))
        + (l1 ++ l2).length := by
      have hge := ufFold_count_ge g.n (l1 ++ l2) id (fun _ => rfl)
        (fun x hx => hx) hwfE
      rw [numClasses_id] at hge
      exact hge
    have hclasses : numClasses g.n (ufFold id Apairs)
        = numClasses g.n (ufFold id (l1 ++ l2)) := by
      apply numClasses_congr
      intro u v
      rw [ufFold_id_conn Apairs u v, ufFold_id_conn (l1 ++ l2) u v]
      exact hiff u v
    have hlen : (l1 ++ l2).length + 1 = Apairs.length := by
      rw [hsplit]
      simp only [List.length_append, List.length_cons]
      omega
    omega

theorem kruskal_moment (g : KGraph) :
    ∀ pre ip post, kruskalInput g = pre ++ ip :: post →
      ip ∈ kruskalAccepted g →
      (kruskalFold id pre).1 ip.2.1 ≠ (kruskalFold id pre).1 ip.2.2 := by
  intro pre ip post hsplit hacc
  have hnodup := kruskalInput_fst_nodup g
  rw [hsplit, List.map_append, List.map_cons] at hnodup
  obtain ⟨hn1, hn2, hdisj⟩ := List.nodup_append.mp hnodup
  unfold kruskalAccepted at hacc
  rw [hsplit, kruskalFold_append] at hacc
  rcases List.mem_append.mp hacc with h | h
  · have hpre : ip ∈ pre := (kruskalFold_accepted_sublist pre id).subset h
    exact absurd (List.mem_cons_self ip.1 (post.map Prod.fst))
      (hdisj (List.mem_map.mpr ⟨ip, hpre, rfl⟩))
  · intro heq
    rw [show kruskalFold (kruskalFold id pre).1 (ip :: post)
        = kruskalFold (kruskalFold id pre).1 post from by
      simp only [kruskalFold]
      rw [if_pos heq]] at h
    have hpost : ip ∈ post :=
      (kruskalFold_accepted_sublist post (kruskalFold id pre).1).subset h
    have : ip.1 ∈ post.map Prod.fst := List.mem_map.mpr ⟨ip, hpost, rfl⟩
    exact absurd this (List.nodup_cons.mp hn2).1

/-- C1: after `computeOptimalSpanningTree`, the number of edges flagged
`isSpanningTreeEdge` plus the number of connected components equals the
number of vertices; the partition the component count is taken over is
exactly the equivalence closure of undirected adjacency (second conjunct);
the flagged subgraph, viewed undirected, contains no cycle; and every
accepted edge had, at the moment the Kruskal loop considered it, endpoints
with different union-find representatives. -/
theorem computeOptimalSpanningTree_spec (g : KGraph)
    (wf : ∀ e ∈ g.edges, e.src < g.n ∧ e.tgt < g.n) :
    ((computeOptimalSpanningTree g).edges.filter
        (fun e => e.isSpanningTreeEdge)).length + numComponents g = g.n ∧
    (∀ x y : Nat, ufFold id (g.edges.map ends) x = ufFold id (g.edges.map ends) y
        ↔ Relation.EqvGen (PRel (g.edges.map ends)) x y) ∧
    ¬ HasCycle (((computeOptimalSpanningTree g).edges.filter
        (fun e => e.isSpanningTreeEdge)).map ends) ∧
    (∀ pre ip post, kruskalInput g = pre ++ ip :: post →
        ip ∈ kruskalAccepted g →
        (kruskalFold id pre).1 ip.2.1 ≠ (kruskalFold id pre).1 ip.2.2) := by
  refine ⟨?_, fun x y => ufFold_id_conn (g.edges.map ends) x y,
    kruskal_no_cycle g wf, kruskal_moment g⟩
  have hflen : ((computeOptimalSpanningTree g).edges.filter
      (fun e => e.isSpanningTreeEdge)).length = (kruskalAccepted g).length := by
    have hl := (flagged_perm g).length_eq
    simpa using hl
  have hcount := kruskalFold_count g.n (kruskalInput g) id (fun _ => rfl)
    (fun x hx => hx) (kruskalInput_wf g wf)
  rw [numClasses_id] at hcount
  have hcc : numClasses g.n (kruskalFold id (kruskalInput g)).1 = numComponents g := by
    rw [kruskalFold_uf_eq]
    unfold numComponents
    apply ufFold_id_classes_congr
    exact fun q => (kruskalInput_snd_perm g).mem_iff
  unfold kruskalAccepted at hflen
  omega

theorem computeOptimalSpanningTree_spec_witness :
    (∀ e ∈ wKG3.edges, e.src < wKG3.n ∧ e.tgt < wKG3.n) ∧
    ((computeOptimalSpanningTree wKG3).edges.filter
        (fun e => e.isSpanningTreeEdge)).length + numComponents wKG3 = wKG3.n :=
  ⟨by decide, (computeOptimalSpanningTree_spec wKG3 (by decide)).1⟩

theorem treeInEdges_mem {g : KGraph} {v : Nat} {e : KEdge} (h : e ∈ treeInEdges g v) :
    e ∈ g.edges ∧ e.isSpanningTreeEdge = true ∧ e.tgt = v := by
  obtain ⟨h1, h2⟩ := List.mem_filter.mp h
  simp only [Bool.and_eq_true, beq_iff_eq] at h2
  exact ⟨h1, h2.1, h2.2⟩

theorem mem_treeInEdges {g : KGraph} {v : Nat} {e : KEdge} (h1 : e ∈ g.edges)
    (h2 : e.isSpanningTreeEdge = true) (h3 : e.tgt = v) : e ∈ treeInEdges g v := by
  refine List.mem_filter.mpr ⟨h1, ?_⟩
  simp [h2, h3]

theorem scanInEdges_spec (table : Nat → Option (Option Nat × Nat)) :
    ∀ (es : List KEdge) (p0 : Option Nat × Nat),
      (∀ e ∈ es, (table e.src).isSome = true) →
      ∃ p, scanInEdges table es p0 = some p ∧
        p0.2 ≤ p.2 ∧
        (∀ e ∈ es, ∀ q, table e.src = some q → q.2 + 1 ≤ p.2) ∧
        (p = p0 ∨ ∃ e ∈ es, ∃ q, table e.src = some q ∧ p.1 = some e.src ∧ p.2 = q.2 + 1) := by
  intro es
  induction es with
  | nil =>
    intro p0 _
    exact ⟨p0, rfl, le_refl _, by simp, Or.inl rfl⟩
  | cons e t ih =>
    intro p0 hdom
    obtain ⟨q, hq⟩ : ∃ q, table e.src = some q := by
      have h := hdom e (List.mem_cons_self e t)
      cases htv : table e.src with
      | none => rw [htv] at h; simp at h
      | some q => exact ⟨q, rfl⟩
    by_cases hcmp : q.2 + 1 > p0.2
    · obtain ⟨p, hscan, hle, hub, hach⟩ :=
        ih (some e.src, q.2 + 1) (fun e2 he2 => hdom e2 (List.mem_cons_of_mem e he2))
      have hle2 : q.2 + 1 ≤ p.2 := hle
      refine ⟨p, ?_, by omega, ?_, ?_⟩
      · simp only [scanInEdges, hq, if_pos hcmp]
        exact hscan
      · intro e2 he2 q2 hq2
        rcases List.mem_cons.mp he2 with rfl | he2
        · rw [hq] at hq2
          injection hq2 with hq2
          subst hq2
          omega
        · exact hub e2 he2 q2 hq2
      · rcases hach with heq | ⟨e2, he2, q2, hq2, h1, h2⟩
        · exact Or.inr ⟨e, List.mem_cons_self e t, q, hq,
            by rw [heq], by rw [heq]⟩
        · exact Or.inr ⟨e2, List.mem_cons_of_mem e he2, q2, hq2, h1, h2⟩
    · obtain ⟨p, hscan, hle, hub, hach⟩ :=
        ih p0 (fun e2 he2 => hdom e2 (List.mem_cons_of_mem e he2))
      refine ⟨p, ?_, hle, ?_, ?_⟩
      · simp only [scanInEdges, hq, if_neg hcmp]
        exact hscan
      · intro e2 he2 q2 hq2
        rcases List.mem_cons.mp he2 with rfl | he2
        · rw [hq] at hq2
          injection hq2 with hq2
          subst hq2
          omega
        · exact hub e2 he2 q2 hq2
      · rcases hach with heq | ⟨e2, he2, q2, hq2, h1, h2⟩
        · exact Or.inl heq
        · exact Or.inr ⟨e2, List.mem_cons_of_mem e he2, q2, hq2, h1, h2⟩

theorem dpFold_go (g : KGraph) (order : List Nat)
    (wf : ∀ e ∈ g.edges, e.src < g.n ∧ e.tgt < g.n)
    (htopo : IsTopoOrder g order) :
    ∀ (rest done : List Nat) (table : Nat → Option (Option Nat × Nat)),
      order = done ++ rest →
      (∀ u, (table u).isSome = true ↔ u ∈ done) →
      (∀ v ∈ done, Local g table v) →
      ∃ tfin, dpFold g rest table = some tfin ∧
        (∀ u, (tfin u).isSome = true ↔ u ∈ order) ∧
        (∀ v q, table v = some q → tfin v = some q) ∧
        (∀ v ∈ order, Local g tfin v) := by
  intro rest
  induction rest with
  | nil =>
    intro done table horder hdom hloc
    refine ⟨table, rfl, ?_, fun v q h => h, ?_⟩
    · intro u
      rw [hdom u, horder]
      simp
    · intro v hv
      refine hloc v ?_
      rw [horder] at hv
      simpa using hv
  | cons v rest ih =>
    intro done table horder hdom hloc
    have hnodup : order.Nodup := htopo.1
    have hvnotdone : v ∉ done := by
      rw [horder] at hnodup
      have hdisj := List.disjoint_of_nodup_append hnodup
      intro hv
      exact hdisj hv (List.mem_cons_self v rest)
    have hvidx : List.indexOf v order = done.length := by
      rw [horder, List.indexOf_append_of_not_mem hvnotdone, List.indexOf_cons_self]
      omega
    have hsrc : ∀ e ∈ treeInEdges g v, e.src ∈ done := by
      intro e he
      obtain ⟨hmem, htree, htgt⟩ := treeInEdges_mem he
      have hidx := htopo.2.2.2 e hmem htree
      rw [htgt, hvidx] at hidx
      have hsrcmem : e.src ∈ order := htopo.2.2.1 e.src (wf e hmem).1
      by_contra hnd
      rw [horder] at hsrcmem
      rcases List.mem_append.mp hsrcmem with h | h
      · exact hnd h
      · rw [horder, List.indexOf_append_of_not_mem hnd] at hidx
        omega
    have hdef : ∀ e ∈ treeInEdges g v, (table e.src).isSome = true :=
      fun e he => (hdom e.src).mpr (hsrc e he)
    obtain ⟨p, hscan, hle, hub, hach⟩ := scanInEdges_spec table (treeInEdges g v) (none, 0) hdef
    have hstep : dpFold g (v :: rest) table
        = dpFold g rest (fun u => if u = v then some p else table u) := by
      simp only [dpFold, hscan]
    have horder2 : order = (done ++ [v]) ++ rest := by
      rw [horder]
      simp
    have hdom2 : ∀ u, ((fun u => if u = v then some p else table u) u).isSome = true
        ↔ u ∈ done ++ [v] := by
      intro u
      by_cases hu : u = v
      · subst hu
        simp
      · simp only [if_neg hu]
        simp only [List.mem_append, List.mem_singleton, hu, or_false]
        exact hdom u
    have hstab : ∀ w q, table w = some q →
        (fun u => if u = v then some p else table u) w = some q := by
      intro w q hw
      by_cases hw2 : w = v
      · exfalso
        subst hw2
        exact hvnotdone ((hdom w).mp (by rw [hw]; rfl))
      · simp only [if_neg hw2]
        exact hw
    have hsrc_old : ∀ w ∈ done, ∀ e ∈ treeInEdges g w, e.src ≠ v := by
      intro w hw e he hev
      obtain ⟨hmem, htree, htgt⟩ := treeInEdges_mem he
      have hidx := htopo.2.2.2 e hmem htree
      rw [htgt, hev, hvidx] at hidx
      have hw_idx : List.indexOf w order < done.length := by
        rw [horder, List.indexOf_append_of_mem hw]
        exact List.indexOf_lt_length.mpr hw
      omega
    have hloc2 : ∀ w ∈ done ++ [v],
        Local g (fun u => if u = v then some p else table u) w := by
      intro w hw
      rcases List.mem_append.mp hw with hw | hw
      · obtain ⟨pw, hpw, hA, hB, hC⟩ := hloc w hw
        refine ⟨pw, hstab w pw hpw, hA, ?_, ?_⟩
        · intro hne
          obtain ⟨e, he, q, hq, h1, h2⟩ := hB hne
          exact ⟨e, he, q, hstab _ _ hq, h1, h2⟩
        · intro e he q hq
          have hev : e.src ≠ v := hsrc_old w hw e he
          have hq2 : table e.src = some q := by
            simpa only [if_neg hev] using hq
          exact hC e he q hq2
      · have hw : w = v := by simpa using hw
        subst hw
        have hself : ∀ e ∈ treeInEdges g w, e.src ≠ w := by
          intro e he hev
          obtain ⟨hmem, htree, htgt⟩ := treeInEdges_mem he
          have hidx := htopo.2.2.2 e hmem htree
          rw [htgt, hev] at hidx
          exact lt_irrefl _ hidx
        refine ⟨p, by simp, ?_, ?_, ?_⟩
        · intro hempty
          rw [hempty] at hach
          rcases hach with h | ⟨e, he, _⟩
          · exact h
          · exact absurd he (List.not_mem_nil e)
        · intro hne
          rcases hach with heq | ⟨e, he, q, hq, h1, h2⟩
          · exfalso
            obtain ⟨e, he⟩ := List.exists_mem_of_ne_nil _ hne
            obtain ⟨q, hq⟩ : ∃ q, table e.src = some q := by
              have h := hdef e he
              cases htv : table e.src with
              | none => rw [htv] at h; simp at h
              | some q => exact ⟨q, rfl⟩
            have hb := hub e he q hq
            rw [heq] at hb
            simp at hb
          · refine ⟨e, he, q, ?_, h1, h2⟩
            exact hstab _ _ hq
        · intro e he q hq
          have hev : e.src ≠ w := hself e he
          have hq2 : table e.src = some q := by
            simpa only [if_neg hev] using hq
          exact hub e he q hq2
    obtain ⟨tfin, hdp, hdomf, hstabf, hlocf⟩ := ih (done ++ [v]) _ horder2 hdom2 hloc2
    exact ⟨tfin, by rw [hstep]; exact hdp, hdomf,
      fun w q hw => hstabf w q (hstab w q hw), hlocf⟩

theorem bestPathTable_spec (g : KGraph) (order : List Nat)
    (wf : ∀ e ∈ g.edges, e.src < g.n ∧ e.tgt < g.n)
    (htopo : IsTopoOrder g order) :
    ∃ table, bestPathTable g order = some table ∧
      (∀ u, (table u).isSome = true ↔ u ∈ order) ∧
      (∀ v ∈ order, Local g table v) := by
  obtain ⟨tfin, hdp, hdom, _, hloc⟩ :=
    dpFold_go g order wf htopo order [] (fun _ => none) rfl (by simp) (by simp)
  exact ⟨tfin, hdp, hdom, hloc⟩

theorem dist_le_indexOf (g : KGraph) (order : List Nat)
    (htopo : IsTopoOrder g order) (table : Nat → Option (Option Nat × Nat))
    (hdom : ∀ u, (table u).isSome = true ↔ u ∈ order)
    (hloc : ∀ v ∈ order, Local g table v) :
    ∀ k v, v ∈ order → List.indexOf v order ≤ k →
      ∀ p, table v = some p → p.2 ≤ List.indexOf v order := by
  intro k
  induction k with
  | zero =>
    intro v hv hk p hp
    obtain ⟨pv, hpv, hA, hB, hC⟩ := hloc v hv
    rw [hpv] at hp
    injection hp with hp
    subst hp
    by_cases hne : treeInEdges g v = []
    · rw [hA hne]
      simp
    · obtain ⟨e, he, q, hq, h1, h2⟩ := hB hne
      exfalso
      obtain ⟨hmem, htree, htgt⟩ := treeInEdges_mem he
      have hidx := htopo.2.2.2 e hmem htree
      rw [htgt] at hidx
      omega
  | succ k ihk =>
    intro v hv hk p hp
    obtain ⟨pv, hpv, hA, hB, hC⟩ := hloc v hv
    rw [hpv] at hp
    injection hp with hp
    subst hp
    by_cases hne : treeInEdges g v = []
    · rw [hA hne]
      simp
    · obtain ⟨e, he, q, hq, h1, h2⟩ := hB hne
      obtain ⟨hmem, htree, htgt⟩ := treeInEdges_mem he
      have hidx := htopo.2.2.2 e hmem htree
      rw [htgt] at hidx
      have hsrcmem : e.src ∈ order := (hdom e.src).mp (by rw [hq]; rfl)
      have hrec := ihk e.src hsrcmem (by omega) q hq
      omega

theorem lastVertexFold_spec (table : Nat → Option (Option Nat × Nat)) :
    ∀ (vs : List Nat) (best : Option Nat × Nat),
      (∀ v ∈ vs, (table v).isSome = true) →
      ∃ b, lastVertexFold table vs best = some b ∧
        best.2 ≤ b.2 ∧
        (∀ v ∈ vs, ∀ q, table v = some q → q.2 ≤ b.2) ∧
        (b = best ∨ ∃ v ∈ vs, ∃ q, table v = some q ∧ b = (some v, q.2)) := by
  intro vs
  induction vs with
  | nil =>
    intro best _
    exact ⟨best, rfl, le_refl _, by simp, Or.inl rfl⟩
  | cons v t ih =>
    intro best hdom
    obtain ⟨q, hq⟩ : ∃ q, table v = some q := by
      have h := hdom v (List.mem_cons_self v t)
      cases htv : table v with
      | none => rw [htv] at h; simp at h
      | some q => exact ⟨q, rfl⟩
    by_cases hcmp : q.2 > best.2
    · obtain ⟨b, hb, hle, hub, hach⟩ :=
        ih (some v, q.2) (fun w hw => hdom w (List.mem_cons_of_mem v hw))
      have hle2 : q.2 ≤ b.2 := hle
      refine ⟨b, ?_, by omega, ?_, ?_⟩
      · simp only [lastVertexFold, hq, if_pos hcmp]
        exact hb
      · intro w hw q2 hq2
        rcases List.mem_cons.mp hw with rfl | hw
        · rw [hq] at hq2
          injection hq2 with hq2
          subst hq2
          omega
        · exact hub w hw q2 hq2
      · rcases hach with heq | ⟨w, hw, q2, hq2, hbw⟩
        · exact Or.inr ⟨v, List.mem_cons_self v t, q, hq, heq⟩
        · exact Or.inr ⟨w, List.mem_cons_of_mem v hw, q2, hq2, hbw⟩
    · obtain ⟨b, hb, hle, hub, hach⟩ :=
        ih best (fun w hw => hdom w (List.mem_cons_of_mem v hw))
      refine ⟨b, ?_, hle, ?_, ?_⟩
      · simp only [lastVertexFold, hq, if_neg hcmp]
        exact hb
      · intro w hw q2 hq2
        rcases List.mem_cons.mp hw with rfl | hw
        · rw [hq] at hq2
          injection hq2 with hq2
          subst hq2
          omega
        · exact hub w hw q2 hq2
      · rcases hach with heq | ⟨w, hw, q2, hq2, hbw⟩
        · exact Or.inl heq
        · exact Or.inr ⟨w, List.mem_cons_of_mem v hw, q2, hq2, hbw⟩

theorem pairChain_append (pr : Nat × Nat) :
    ∀ l : List (Nat × Nat), PairChain l →
      (l = [] ∨ ∃ pre u, l = pre ++ [(u, pr.1)]) → PairChain (l ++ [pr]) := by
  intro l
  induction l with
  | nil =>
    intro _ _
    simp [PairChain]
  | cons a t ih =>
    intro hc hlink
    cases t with
    | nil =>
      rcases hlink with h | ⟨pre, u, h⟩
      · simp at h
      · cases pre with
        | nil =>
          simp at h
          subst h
          exact ⟨rfl, trivial⟩
        | cons b s =>
          exfalso
          simp only [List.cons_append, List.cons.injEq] at h
          have h2 := h.2
          simp at h2
    | cons b s =>
      obtain ⟨hab, hrest⟩ := hc
      refine ⟨hab, ih hrest ?_⟩
      rcases hlink with h | ⟨pre, u, h⟩
      · simp at h
      · cases pre with
        | nil =>
          exfalso
          simp at h
        | cons c pre2 =>
          simp only [List.cons_append, List.cons.injEq] at h
          exact Or.inr ⟨pre2, u, h.2⟩

theorem backtrack_spec (g : KGraph) (order : List Nat)
    (table : Nat → Option (Option Nat × Nat))
    (hloc : ∀ v ∈ order, Local g table v)
    (hclosed : ∀ e ∈ g.edges, e.isSpanningTreeEdge = true → e.src ∈ order) :
    ∀ (d fuel v : Nat), v ∈ order → d < fuel →
      ∀ p, table v = some p → p.2 = d →
      PairChain (backtrack table fuel v) ∧
      (backtrack table fuel v).length = d ∧
      (∀ pr ∈ backtrack table fuel v, ∃ e ∈ g.edges,
          e.isSpanningTreeEdge = true ∧ e.src = pr.1 ∧ e.tgt = pr.2) ∧
      (d = 0 → backtrack table fuel v = []) ∧
      (0 < d → ∃ pre u, backtrack table fuel v = pre ++ [(u, v)]) := by
  intro d
  induction d with
  | zero =>
    intro fuel v hv hfuel p hp hd
    obtain ⟨pv, hpv, hA, hB, hC⟩ := hloc v hv
    rw [hpv] at hp
    injection hp with hp
    subst hp
    have hempty : treeInEdges g v = [] := by
      by_contra hne
      obtain ⟨e, he, q, hq, h1, h2⟩ := hB hne
      omega
    rw [hA hempty] at hpv
    have hbt : backtrack table fuel v = [] := by
      cases fuel with
      | zero => rfl
      | succ f => simp only [backtrack, hpv]
    rw [hbt]
    refine ⟨trivial, rfl, by simp, fun _ => rfl, fun h0 => absurd h0 (lt_irrefl 0)⟩
  | succ d ihd =>
    intro fuel v hv hfuel p hp hd
    obtain ⟨pv, hpv, hA, hB, hC⟩ := hloc v hv
    rw [hpv] at hp
    injection hp with hp
    subst hp
    have hne : treeInEdges g v ≠ [] := by
      intro hempty
      rw [hA hempty] at hd
      simp at hd
    obtain ⟨e, he, q, hq, h1, h2⟩ := hB hne
    obtain ⟨hmem, htree, htgt⟩ := treeInEdges_mem he
    cases fuel with
    | zero => omega
    | succ f =>
      have hpveq : pv = (some e.src, q.2 + 1) := Prod.ext_iff.mpr ⟨h1, h2⟩
      rw [hpveq] at hpv
      have hbt : backtrack table (f + 1) v = backtrack table f e.src ++ [(e.src, v)] := by
        simp only [backtrack, hpv]
      have hsrcmem : e.src ∈ order := hclosed e hmem htree
      have hql : q.2 = d := by omega
      obtain ⟨hch, hlen, hadj, hz, hlast⟩ := ihd f e.src hsrcmem (by omega) q hq hql
      rw [hbt]
      refine ⟨?_, ?_, ?_, fun h0 => by omega, fun _ => ⟨backtrack table f e.src, e.src, rfl⟩⟩
      · apply pairChain_append (e.src, v) _ hch
        rcases Nat.eq_zero_or_pos d with rfl | hpos
        · exact Or.inl (hz rfl)
        · obtain ⟨pre2, u2, heq2⟩ := hlast hpos
          exact Or.inr ⟨pre2, u2, heq2⟩
      · rw [List.length_append, hlen]
        simp
      · intro pr hpr
        rcases List.mem_append.mp hpr with h | h
        · exact hadj pr h
        · have hpr2 : pr = (e.src, v) := by simpa using h
          subst hpr2
          exact ⟨e, hmem, htree, rfl, htgt⟩

theorem treeChain_bound (g : KGraph) (order : List Nat)
    (table : Nat → Option (Option Nat × Nat))
    (hloc : ∀ v ∈ order, Local g table v) :
    ∀ (vs : List Nat) (v : Nat), TreeChain g (v :: vs) → (∀ w ∈ v :: vs, w ∈ order) →
      ∃ pf pl, table v = some pf ∧
        table ((v :: vs).getLast (List.cons_ne_nil v vs)) = some pl ∧
        pf.2 + vs.length ≤ pl.2 := by
  intro vs
  induction vs with
  | nil =>
    intro v _ hmem
    obtain ⟨pf, hpf, _, _, _⟩ := hloc v (hmem v (List.mem_cons_self v []))
    exact ⟨pf, pf, hpf, by simpa using hpf, by simp⟩
  | cons w t ih =>
    intro v hchain hmem
    simp only [TreeChain] at hchain
    obtain ⟨⟨e, he, htree, hsrc, htgt⟩, hrest⟩ := hchain
    obtain ⟨pw, pl, hpw, hpl, hbound⟩ := ih w hrest (fun x hx => hmem x (List.mem_cons_of_mem v hx))
    obtain ⟨pw2, hpw2, _, _, hCw⟩ := hloc w (hmem w (by simp))
    obtain ⟨pv, hpv, _, _, _⟩ := hloc v (hmem v (by simp))
    rw [hpw] at hpw2
    injection hpw2 with hpw2
    subst hpw2
    have hem : e ∈ treeInEdges g w := mem_treeInEdges he htree htgt
    have hstep : pv.2 + 1 ≤ pw.2 := hCw e hem pv (by rw [hsrc]; exact hpv)
    refine ⟨pv, pl, hpv, ?_, ?_⟩
    · rw [List.getLast_cons (List.cons_ne_nil w t)]
      exact hpl
    · simp only [List.length_cons]
      omega

theorem findEdgeIdx_isSome (g : KGraph) (a b : Nat)
    (h : ∃ e ∈ g.edges, e.src = a ∧ e.tgt = b) : (findEdgeIdx g a b).isSome = true := by
  obtain ⟨e, he, h1, h2⟩ := h
  unfold findEdgeIdx
  rw [List.findIdx?_isSome, List.any_eq_true]
  exact ⟨e, he, by simp [h1, h2]⟩

theorem findEdgeIdx_some {g : KGraph} {a b i : Nat} (h : findEdgeIdx g a b = some i) :
    ∃ hlt : i < g.edges.length, (g.edges[i]).src = a ∧ (g.edges[i]).tgt = b := by
  unfold findEdgeIdx at h
  rw [List.findIdx?_eq_some_iff_getElem] at h
  obtain ⟨hlt, hp, _⟩ := h
  simp only [Bool.and_eq_true, beq_iff_eq] at hp
  exact ⟨hlt, hp.1, hp.2⟩

theorem foldr_findEdge_spec (g : KGraph) :
    ∀ prs : List (Nat × Nat),
      (∀ pr ∈ prs, (findEdgeIdx g pr.1 pr.2).isSome = true) →
      ∃ idxs, prs.foldr (fun pr acc =>
          match acc, findEdgeIdx g pr.1 pr.2 with
          | some l, some i => some (i :: l)
          | _, _ => none) (some []) = some idxs ∧
        List.Forall₂ (fun (pr : Nat × Nat) i => findEdgeIdx g pr.1 pr.2 = some i) prs idxs := by
  intro prs
  induction prs with
  | nil => exact fun _ => ⟨[], rfl, List.Forall₂.nil⟩
  | cons pr t ih =>
    intro hdom
    obtain ⟨idxs, hfold, hf2⟩ := ih (fun x hx => hdom x (List.mem_cons_of_mem pr hx))
    obtain ⟨i, hi⟩ : ∃ i, findEdgeIdx g pr.1 pr.2 = some i := by
      have h := hdom pr (List.mem_cons_self pr t)
      cases hf : findEdgeIdx g pr.1 pr.2 with
      | none => rw [hf] at h; simp at h
      | some i => exact ⟨i, rfl⟩
    refine ⟨i :: idxs, ?_, List.Forall₂.cons hi hf2⟩
    simp only [List.foldr_cons, hfold, hi]

/-- C2: under any valid topological order of the spanning-tree subgraph,
`computeOptimalSpanningTreeBestPath` builds a vertex table in which a vertex
with no incoming spanning-tree edge gets `(none, 0)` and any other vertex
gets a predecessor achieving `longestDistance + 1`, maximal over its incoming
tree edges; the flagged edges form a single directed path of consecutive
spanning-tree-adjacent vertex pairs, its length is the globally maximum
`longestDistance` (attained at its final vertex), and no directed path of
spanning-tree edges is longer. -/
theorem computeOptimalSpanningTreeBestPath_spec (g : KGraph) (order : List Nat)
    (wf : ∀ e ∈ g.edges, e.src < g.n ∧ e.tgt < g.n)
    (htopo : IsTopoOrder g order) :
    ∃ table, bestPathTable g order = some table ∧
      (∀ v, v < g.n → Local g table v) ∧
      ∃ prs idxs g2,
        pathPairs g order = some prs ∧
        pathEdgeIdxs g order = some idxs ∧
        computeOptimalSpanningTreeBestPath g order = some g2 ∧
        List.Forall₂ (fun (pr : Nat × Nat) i => findEdgeIdx g pr.1 pr.2 = some i) prs idxs ∧
        PairChain prs ∧
        (∀ pr ∈ prs, ∃ e ∈ g.edges, e.isSpanningTreeEdge = true ∧
            e.src = pr.1 ∧ e.tgt = pr.2) ∧
        ∃ m, prs.length = m ∧
          (∀ v, v < g.n → ∀ p, table v = some p → p.2 ≤ m) ∧
          (0 < m → ∃ pre u v, prs = pre ++ [(u, v)] ∧ v < g.n ∧
              ∃ p, table v = some p ∧ p.2 = m) ∧
          (∀ vs v, TreeChain g (v :: vs) → (∀ w ∈ v :: vs, w < g.n) →
              (v :: vs).length ≤ m + 1) := by
  obtain ⟨table, htab, hdom, hloc⟩ := bestPathTable_spec g order wf htopo
  have hmemn : ∀ v, v ∈ order ↔ v < g.n := fun v => ⟨htopo.2.1 v, htopo.2.2.1 v⟩
  refine ⟨table, htab, fun v hv => hloc v ((hmemn v).mpr hv), ?_⟩
  have hdomr : ∀ v ∈ List.range g.n, (table v).isSome = true := by
    intro v hv
    exact (hdom v).mpr ((hmemn v).mpr (List.mem_range.mp hv))
  obtain ⟨best, hbest, hble, hbub, hbach⟩ :=
    lastVertexFold_spec table (List.range g.n) (none, 0) hdomr
  have hclosed : ∀ e ∈ g.edges, e.isSpanningTreeEdge = true → e.src ∈ order :=
    fun e he _ => htopo.2.2.1 e.src (wf e he).1
  cases hb1 : best.1 with
  | none =>
    have hbeq : best = (none, 0) := by
      rcases hbach with heq | ⟨w, hw, q, hqw, hbw⟩
      · exact heq
      · rw [hbw] at hb1
        simp at hb1
    have hprs : pathPairs g order = some [] := by
      simp only [pathPairs, htab, hbest, hb1]
    have hidxs : pathEdgeIdxs g order = some [] := by
      simp only [pathEdgeIdxs, hprs, List.foldr_nil]
    obtain ⟨g2, hg2⟩ : ∃ g2, computeOptimalSpanningTreeBestPath g order = some g2 := by
      simp only [computeOptimalSpanningTreeBestPath, hidxs]
      exact ⟨_, rfl⟩
    refine ⟨[], [], g2, hprs, hidxs, hg2, List.Forall₂.nil, trivial, by simp, 0, rfl,
      ?_, fun h0 => absurd h0 (lt_irrefl 0), ?_⟩
    · intro v hv p hp
      have hb := hbub v (List.mem_range.mpr hv) p hp
      rw [hbeq] at hb
      exact hb
    · intro vs v hchain hmemlt
      obtain ⟨pf, pl, hpf, hpl, hbound⟩ := treeChain_bound g order table hloc vs v hchain
        (fun x hx => (hmemn x).mpr (hmemlt x hx))
      have hlm := hmemlt _ (List.getLast_mem (List.cons_ne_nil v vs))
      have hple : pl.2 ≤ best.2 := hbub _ (List.mem_range.mpr hlm) pl hpl
      rw [hbeq] at hple
      have hple2 : pl.2 ≤ 0 := hple
      simp only [List.length_cons]
      omega
  | some v0 =>
    rcases hbach with heq | ⟨w, hw, q, hqw, hbw⟩
    · rw [heq] at hb1
      simp at hb1
    have hb2 : best.2 = q.2 := by rw [hbw]
    have hwlt : w < g.n := List.mem_range.mp hw
    have hvmem : w ∈ order := (hmemn w).mpr hwlt
    have hdle := dist_le_indexOf g order htopo table hdom hloc
      (List.indexOf w order) w hvmem (le_refl _) q hqw
    have hidxlt : List.indexOf w order < order.length := List.indexOf_lt_length.mpr hvmem
    obtain ⟨hch, hlen, hadj, hz, hlast⟩ := backtrack_spec g order table hloc hclosed
      q.2 (order.length + 1) w hvmem (by omega) q hqw rfl
    have hwv0 : v0 = w := by
      rw [hbw] at hb1
      injection hb1 with hb1
      exact hb1.symm
    have hprs : pathPairs g order = some (backtrack table (order.length + 1) w) := by
      simp only [pathPairs, htab, hbest, hb1, hwv0]
    have hdef : ∀ pr ∈ backtrack table (order.length + 1) w,
        (findEdgeIdx g pr.1 pr.2).isSome = true := by
      intro pr hpr
      obtain ⟨e, he, ht, h1, h2⟩ := hadj pr hpr
      exact findEdgeIdx_isSome g pr.1 pr.2 ⟨e, he, h1, h2⟩
    obtain ⟨idxs, hfold, hf2⟩ := foldr_findEdge_spec g _ hdef
    have hidxs : pathEdgeIdxs g order = some idxs := by
      simp only [pathEdgeIdxs, hprs]
      exact hfold
    obtain ⟨g2, hg2⟩ : ∃ g2, computeOptimalSpanningTreeBestPath g order = some g2 := by
      simp only [computeOptimalSpanningTreeBestPath, hidxs]
      exact ⟨_, rfl⟩
    refine ⟨_, idxs, g2, hprs, hidxs, hg2, hf2, hch, hadj, q.2, hlen, ?_, ?_, ?_⟩
    · intro v hv p hp
      have hb := hbub v (List.mem_range.mpr hv) p hp
      omega
    · intro hpos
      obtain ⟨pre, u, heq⟩ := hlast hpos
      exact ⟨pre, u, w, heq, hwlt, q, hqw, rfl⟩
    · intro vs v hchain hmemlt
      obtain ⟨pf, pl, hpf, hpl, hbound⟩ := treeChain_bound g order table hloc vs v hchain
        (fun x hx => (hmemn x).mpr (hmemlt x hx))
      have hlm := hmemlt _ (List.getLast_mem (List.cons_ne_nil v vs))
      have hple : pl.2 ≤ best.2 := hbub _ (List.mem_range.mpr hlm) pl hpl
      simp only [List.length_cons]
      omega

theorem computeOptimalSpanningTreeBestPath_spec_witness :
    (∀ e ∈ (computeOptimalSpanningTree wKG3).edges,
        e.src < (computeOptimalSpanningTree wKG3).n ∧
        e.tgt < (computeOptimalSpanningTree wKG3).n) ∧
    IsTopoOrder (computeOptimalSpanningTree wKG3) [0, 1, 2] ∧
    ∃ table, bestPathTable (computeOptimalSpanningTree wKG3) [0, 1, 2] = some table ∧
      (∀ v, v < (computeOptimalSpanningTree wKG3).n →
        Local (computeOptimalSpanningTree wKG3) table v) := by
  refine ⟨by decide, by decide, ?_⟩
  obtain ⟨table, h1, h2, -⟩ := computeOptimalSpanningTreeBestPath_spec
    (computeOptimalSpanningTree wKG3) [0, 1, 2] (by decide) (by decide)
  exact ⟨table, h1, h2⟩

theorem zipIdxFrom_length {α : Type} : ∀ (i : Nat) (l : List α),
    (zipIdxFrom i l).length = l.length := by
  intro i l
  induction l generalizing i with
  | nil => rfl
  | cons a t ih => simp [zipIdxFrom, ih]

theorem zipIdxFrom_getElem {α : Type} :
    ∀ (l : List α) (i j : Nat) (hj : j < l.length) (hj2 : j < (zipIdxFrom i l).length),
      (zipIdxFrom i l)[j] = (i + j, l[j]) := by
  intro l
  induction l with
  | nil =>
    intro i j hj hj2
    simp at hj
  | cons a t ih =>
    intro i j hj hj2
    cases j with
    | zero => simp [zipIdxFrom]
    | succ j =>
      simp only [zipIdxFrom, List.getElem_cons_succ]
      rw [ih (i + 1) j (by simpa using hj)
        (by rw [zipIdxFrom_length]; simpa using hj)]
      congr 1
      omega

theorem zipIdx_map_getElem {f : Nat × KEdge → KEdge} (g : KGraph) (i : Nat)
    (hi : i < g.edges.length) (hi2 : i < ((zipIdxFrom 0 g.edges).map f).length) :
    ((zipIdxFrom 0 g.edges).map f)[i] = f (i, g.edges[i]) := by
  rw [List.getElem_map]
  have hz : i < (zipIdxFrom 0 g.edges).length := by
    rw [zipIdxFrom_length]
    exact hi
  rw [zipIdxFrom_getElem g.edges 0 i hi hz]
  simp

theorem kruskal_edges_length (g : KGraph) :
    (computeOptimalSpanningTree g).edges.length = g.edges.length := by
  unfold computeOptimalSpanningTree
  simp [zipIdxFrom_length]

theorem kruskal_n (g : KGraph) : (computeOptimalSpanningTree g).n = g.n := rfl

theorem kruskal_edges_getElem (g : KGraph) (i : Nat) (hi : i < g.edges.length)
    (hi2 : i < (computeOptimalSpanningTree g).edges.length) :
    (computeOptimalSpanningTree g).edges[i] =
      { g.edges[i] with
        isSpanningTreeEdge := ((kruskalAccepted g).map Prod.fst).contains i } := by
  unfold computeOptimalSpanningTree
  refine zipIdx_map_getElem g i hi ?_

theorem bestPath_frame (g : KGraph) (order : List Nat) (g2 : KGraph)
    (h : computeOptimalSpanningTreeBestPath g order = some g2) :
    ∃ idxs, pathEdgeIdxs g order = some idxs ∧
      g2.n = g.n ∧ g2.edges.length = g.edges.length ∧
      (∀ i, ∀ hi : i < g.edges.length, ∀ hi2 : i < g2.edges.length,
        (g2.edges[i]).isSpanningTreeBestPathEdge
          = ((g.edges[i]).isSpanningTreeBestPathEdge || idxs.contains i) ∧
        (g2.edges[i]).isSpanningTreeEdge = (g.edges[i]).isSpanningTreeEdge ∧
        (g2.edges[i]).src = (g.edges[i]).src ∧
        (g2.edges[i]).tgt = (g.edges[i]).tgt ∧
        (g2.edges[i]).coverage = (g.edges[i]).coverage) := by
  unfold computeOptimalSpanningTreeBestPath at h
  cases hidx : pathEdgeIdxs g order with
  | none =>
    rw [hidx] at h
    simp at h
  | some idxs =>
    rw [hidx] at h
    injection h with h
    subst h
    refine ⟨idxs, rfl, rfl, by simp [zipIdxFrom_length], ?_⟩
    intro i hi hi2
    have hget := zipIdx_map_getElem (f := fun p =>
        if idxs.contains p.1 then { p.2 with isSpanningTreeBestPathEdge := true }
        else p.2) g i hi hi2
    rw [hget]
    by_cases hc : i ∈ idxs
    · simp [hc]
    · simp [hc]

theorem forall₂_exists_left {α β : Type} {R : α → β → Prop} :
    ∀ {l1 : List α} {l2 : List β}, List.Forall₂ R l1 l2 → ∀ b ∈ l2, ∃ a ∈ l1, R a b := by
  intro l1 l2 h
  induction h with
  | nil =>
    intro b hb
    simp at hb
  | @cons a b l1t l2t hR hrest ih =>
    intro c hc
    rcases List.mem_cons.mp hc with rfl | hc
    · exact ⟨a, List.mem_cons_self a l1t, hR⟩
    · obtain ⟨x, hx, hxc⟩ := ih c hc
      exact ⟨x, List.mem_cons_of_mem a hx, hxc⟩

theorem pathEdgeIdxs_adjacent (g : KGraph) (order : List Nat)
    (wf : ∀ e ∈ g.edges, e.src < g.n ∧ e.tgt < g.n)
    (htopo : IsTopoOrder g order) :
    ∃ prs idxs, pathPairs g order = some prs ∧ pathEdgeIdxs g order = some idxs ∧
      List.Forall₂ (fun (pr : Nat × Nat) i => findEdgeIdx g pr.1 pr.2 = some i) prs idxs ∧
      (∀ pr ∈ prs, ∃ e ∈ g.edges, e.isSpanningTreeEdge = true ∧
          e.src = pr.1 ∧ e.tgt = pr.2) := by
  obtain ⟨table, htab, hdom, hloc⟩ := bestPathTable_spec g order wf htopo
  have hmemn : ∀ v, v ∈ order ↔ v < g.n := fun v => ⟨htopo.2.1 v, htopo.2.2.1 v⟩
  have hdomr : ∀ v ∈ List.range g.n, (table v).isSome = true := by
    intro v hv
    exact (hdom v).mpr ((hmemn v).mpr (List.mem_range.mp hv))
  obtain ⟨best, hbest, hble, hbub, hbach⟩ :=
    lastVertexFold_spec table (List.range g.n) (none, 0) hdomr
  have hclosed : ∀ e ∈ g.edges, e.isSpanningTreeEdge = true → e.src ∈ order :=
    fun e he _ => htopo.2.2.1 e.src (wf e he).1
  cases hb1 : best.1 with
  | none =>
    have hprs : pathPairs g order = some [] := by
      simp only [pathPairs, htab, hbest, hb1]
    have hidxs : pathEdgeIdxs g order = some [] := by
      simp only [pathEdgeIdxs, hprs, List.foldr_nil]
    exact ⟨[], [], hprs, hidxs, List.Forall₂.nil, by simp⟩
  | some v0 =>
    rcases hbach with heq | ⟨w, hw, q, hqw, hbw⟩
    · rw [heq] at hb1
      simp at hb1
    have hvmem : w ∈ order := (hmemn w).mpr (List.mem_range.mp hw)
    have hdle := dist_le_indexOf g order htopo table hdom hloc
      (List.indexOf w order) w hvmem (le_refl _) q hqw
    have hidxlt : List.indexOf w order < order.length := List.indexOf_lt_length.mpr hvmem
    obtain ⟨hch, hlen, hadj, hz, hlast⟩ := backtrack_spec g order table hloc hclosed
      q.2 (order.length + 1) w hvmem (by omega) q hqw rfl
    have hwv0 : v0 = w := by
      rw [hbw] at hb1
      injection hb1 with hb1
      exact hb1.symm
    have hprs : pathPairs g order = some (backtrack table (order.length + 1) w) := by
      simp only [pathPairs, htab, hbest, hb1, hwv0]
    have hdef : ∀ pr ∈ backtrack table (order.length + 1) w,
        (findEdgeIdx g pr.1 pr.2).isSome = true := by
      intro pr hpr
      obtain ⟨e, he, ht, h1, h2⟩ := hadj pr hpr
      exact findEdgeIdx_isSome g pr.1 pr.2 ⟨e, he, h1, h2⟩
    obtain ⟨idxs, hfold, hf2⟩ := foldr_findEdge_spec g _ hdef
    have hidxs : pathEdgeIdxs g order = some idxs := by
      simp only [pathEdgeIdxs, hprs]
      exact hfold
    exact ⟨_, idxs, hprs, hidxs, hf2, hadj⟩

theorem kruskal_src (g : KGraph) (i : Nat) (hig : i < g.edges.length)
    (hi : i < (computeOptimalSpanningTree g).edges.length) :
    ((computeOptimalSpanningTree g).edges[i]).src = (g.edges[i]).src := by
  rw [kruskal_edges_getElem g i hig hi]

theorem kruskal_tgt (g : KGraph) (i : Nat) (hig : i < g.edges.length)
    (hi : i < (computeOptimalSpanningTree g).edges.length) :
    ((computeOptimalSpanningTree g).edges[i]).tgt = (g.edges[i]).tgt := by
  rw [kruskal_edges_getElem g i hig hi]

theorem kruskal_bp (g : KGraph) (i : Nat) (hig : i < g.edges.length)
    (hi : i < (computeOptimalSpanningTree g).edges.length) :
    ((computeOptimalSpanningTree g).edges[i]).isSpanningTreeBestPathEdge
      = (g.edges[i]).isSpanningTreeBestPathEdge := by
  rw [kruskal_edges_getElem g i hig hi]

/-- C10: `computeOptimalSpanningTreeBestPath` has no reset step: on success,
every edge's `isSpanningTreeBestPathEdge` flag equals its previous value OR-ed
with membership in the newly computed best path, so a flag set by an earlier
invocation persists; by contrast `computeOptimalSpanningTree` sets
`isSpanningTreeEdge` to exactly its acceptance decision, regardless of the
flag's previous value. -/
theorem bestPath_flag_frame_spec (g : KGraph) (order : List Nat) (g2 : KGraph)
    (h : computeOptimalSpanningTreeBestPath g order = some g2) :
    ∃ idxs, pathEdgeIdxs g order = some idxs ∧
      g2.edges.length = g.edges.length ∧
      (∀ i, ∀ hi : i < g.edges.length, ∀ hi2 : i < g2.edges.length,
        (g2.edges[i]).isSpanningTreeBestPathEdge
          = ((g.edges[i]).isSpanningTreeBestPathEdge || idxs.contains i)) ∧
      (∀ i, ∀ hi : i < g.edges.length, ∀ hi2 : i < g2.edges.length,
        (g.edges[i]).isSpanningTreeBestPathEdge = true →
        (g2.edges[i]).isSpanningTreeBestPathEdge = true) ∧
      (∀ i, ∀ hi : i < g.edges.length,
        ∀ hi3 : i < (computeOptimalSpanningTree g).edges.length,
        ((computeOptimalSpanningTree g).edges[i]).isSpanningTreeEdge
          = ((kruskalAccepted g).map Prod.fst).contains i) := by
  obtain ⟨idxs, h1, h2, h3, h4⟩ := bestPath_frame g order g2 h
  refine ⟨idxs, h1, h3, ?_, ?_, ?_⟩
  · intro i hi hi2
    exact (h4 i hi hi2).1
  · intro i hi hi2 hold
    rw [(h4 i hi hi2).1, hold]
    simp
  · intro i hi hi3
    rw [kruskal_edges_getElem g i hi hi3]

theorem bestPath_flag_frame_spec_witness :
    ∃ g2 idxs,
      computeOptimalSpanningTreeBestPath (computeOptimalSpanningTree wKG3) [0, 1, 2]
        = some g2 ∧
      pathEdgeIdxs (computeOptimalSpanningTree wKG3) [0, 1, 2] = some idxs ∧
      g2.edges.length = (computeOptimalSpanningTree wKG3).edges.length := by
  obtain ⟨g2, hg2⟩ : ∃ g2, computeOptimalSpanningTreeBestPath
      (computeOptimalSpanningTree wKG3) [0, 1, 2] = some g2 := ⟨_, rfl⟩
  obtain ⟨idxs, h1, hlen, -, -, -⟩ :=
    bestPath_flag_frame_spec (computeOptimalSpanningTree wKG3) [0, 1, 2] g2 hg2
  exact ⟨g2, idxs, hg2, h1, hlen⟩

/-- C6 (counterexample): on a graph with two parallel edges from vertex 0 to
vertex 1 (coverages 1 and 5), Kruskal accepts the higher-coverage edge
(index 1), but the path reconstruction looks the pair (0, 1) up with
`boost::edge` on the unfiltered graph and flags the first matching edge
(index 0), which is not a spanning-tree edge: the flagged path leaves the
spanning tree. -/
theorem bestPath_parallel_edge_counterexample :
    ((computeOptimalSpanningTreeBestPath (computeOptimalSpanningTree wKG) [0, 1]).map
        (fun g2 => g2.edges.map (fun e =>
          (e.isSpanningTreeEdge, e.isSpanningTreeBestPathEdge))))
      = some [(false, true), (true, false)] := by
  decide

/-- C6 (amended): if no two distinct edges share the same ordered (source,
target) pair and the best-path flags start cleared, then after
`computeOptimalSpanningTree` followed by `computeOptimalSpanningTreeBestPath`
every edge flagged `isSpanningTreeBestPathEdge` is a spanning-tree edge. -/
theorem bestPath_in_tree_of_no_parallel (g : KGraph) (order : List Nat)
    (wf : ∀ e ∈ g.edges, e.src < g.n ∧ e.tgt < g.n)
    (hnp : ∀ i, ∀ hi : i < g.edges.length, ∀ j, ∀ hj : j < g.edges.length,
        (g.edges[i]).src = (g.edges[j]).src → (g.edges[i]).tgt = (g.edges[j]).tgt →
        i = j)
    (hflags : ∀ e ∈ g.edges, e.isSpanningTreeBestPathEdge = false)
    (htopo : IsTopoOrder (computeOptimalSpanningTree g) order)
    (g2 : KGraph)
    (hg2 : computeOptimalSpanningTreeBestPath (computeOptimalSpanningTree g) order
        = some g2) :
    ∀ e ∈ g2.edges, e.isSpanningTreeBestPathEdge = true →
      e.isSpanningTreeEdge = true := by
  have hwf2 : ∀ e ∈ (computeOptimalSpanningTree g).edges,
      e.src < (computeOptimalSpanningTree g).n ∧
      e.tgt < (computeOptimalSpanningTree g).n := by
    intro e he
    obtain ⟨i, hi, rfl⟩ := List.mem_iff_getElem.mp he
    have hig : i < g.edges.length := by rwa [kruskal_edges_length] at hi
    rw [kruskal_src g i hig hi, kruskal_tgt g i hig hi, kruskal_n]
    exact wf (g.edges[i]) (List.getElem_mem hig)
  obtain ⟨prs, idxs2, hprs, hpidx2, hf2, hadj⟩ :=
    pathEdgeIdxs_adjacent (computeOptimalSpanningTree g) order hwf2 htopo
  obtain ⟨idxs, hpidx, hn2, hlen2, hfields⟩ :=
    bestPath_frame (computeOptimalSpanningTree g) order g2 hg2
  have hidq : idxs = idxs2 := by
    rw [hpidx] at hpidx2
    injection hpidx2
  subst hidq
  intro e he hbp
  obtain ⟨i, hi2, rfl⟩ := List.mem_iff_getElem.mp he
  have hi3 : i < (computeOptimalSpanningTree g).edges.length := by
    rwa [hlen2] at hi2
  have hig : i < g.edges.length := by rwa [kruskal_edges_length] at hi3
  obtain ⟨hbpE, htreeE, -, -, -⟩ := hfields i hi3 hi2
  rw [kruskal_bp g i hig hi3, hflags (g.edges[i]) (List.getElem_mem hig)] at hbpE
  rw [hbp] at hbpE
  have hmem : i ∈ idxs := by
    have hc : idxs.contains i = true := by
      rw [Bool.false_or] at hbpE
      exact hbpE.symm
    simpa using hc
  obtain ⟨pr, hprm, hfind⟩ := forall₂_exists_left hf2 i hmem
  obtain ⟨hilt, hsrc, htgt⟩ := findEdgeIdx_some hfind
  obtain ⟨e2, he2, he2tree, he2src, he2tgt⟩ := hadj pr hprm
  obtain ⟨j, hj, rfl⟩ := List.mem_iff_getElem.mp he2
  have hjg : j < g.edges.length := by rwa [kruskal_edges_length] at hj
  have hij : i = j := by
    refine hnp i hig j hjg ?_ ?_
    · rw [← kruskal_src g i hig hilt, ← kruskal_src g j hjg hj, hsrc, he2src]
    · rw [← kruskal_tgt g i hig hilt, ← kruskal_tgt g j hjg hj, htgt, he2tgt]
  subst hij
  rw [htreeE]
  exact he2tree

theorem bestPath_in_tree_of_no_parallel_witness :
    (∀ i, ∀ hi : i < wKG3.edges.length, ∀ j, ∀ hj : j < wKG3.edges.length,
        (wKG3.edges[i]).src = (wKG3.edges[j]).src →
        (wKG3.edges[i]).tgt = (wKG3.edges[j]).tgt → i = j) ∧
    ∃ g2, computeOptimalSpanningTreeBestPath (computeOptimalSpanningTree wKG3) [0, 1, 2]
        = some g2 ∧
      ∀ e ∈ g2.edges, e.isSpanningTreeBestPathEdge = true →
        e.isSpanningTreeEdge = true := by
  refine ⟨by decide, ?_⟩
  obtain ⟨g2, hg2⟩ : ∃ g2, computeOptimalSpanningTreeBestPath
      (computeOptimalSpanningTree wKG3) [0, 1, 2] = some g2 := ⟨_, rfl⟩
  exact ⟨g2, hg2, bestPath_in_tree_of_no_parallel wKG3 [0, 1, 2] (by decide) (by decide)
    (by decide) (by decide) g2 hg2⟩

end Shasta
